import Mathlib

/-!
Verification of the five-in-a-row (Gomoku) engine of `src/ui/games/gomoku.py`
(`GameGomokuDialog`).  The board is a Python list of lists of ints
(0 empty, 1 black, 2 white), coordinates are Python ints (so negative
indices wrap, and an out-of-range index raises IndexError, which the
source swallows with `except Exception: pass`).  Machine floats of the
source carry only values produced by exact integer-and-half arithmetic of
moderate magnitude together with the tuning factors 1.2 and 1.05; they are
modelled as exact rationals.  Search depth is a natural number (the source
treats every depth `<= 0` as a leaf).  The Qt widgets, timers and message
boxes are outside the model; the status label / game-over dialog content
is modelled by the `status : Outcome` field.
-/

/-- What the controller reports through the status label and the
game-over dialog of `_place_current`. -/
inductive Outcome
  | Ongoing
  | Win (p : Nat)
  | Draw
deriving DecidableEq, Repr

/-- The data that all pure scoring/search computations of the source read:
`self.rows`, `self.cols`, `self.board` and `self.ai_player`. -/
structure Core where
  rows : Nat
  cols : Nat
  board : List (List Nat)
  ai : Nat
deriving DecidableEq, Repr

/-- Total read of a board cell at natural coordinates (0 outside). -/
def cellN (b : List (List Nat)) (r c : Nat) : Nat := (b.getD r []).getD c 0

/-- Read of a cell at integer coordinates; only used under an `inB` guard,
mirroring the guarded accesses `self.board[rr][cc]` of the source. -/
def Core.cell (co : Core) (r c : Int) : Nat := cellN co.board r.toNat c.toNat

/-- The bound check `0 <= rr < self.rows and 0 <= cc < self.cols`. -/
def inB (co : Core) (r c : Int) : Bool :=
  decide (0 ≤ r) && decide (r < (co.rows : Int)) &&
  decide (0 ≤ c) && decide (c < (co.cols : Int))

/-- Python list indexing: `a[i]` is valid iff `-len a ≤ i < len a`, negative
indices count from the end; `none` is the IndexError case. -/
def pyIdx (n : Nat) (i : Int) : Option Nat :=
  if 0 ≤ i then (if i < (n : Int) then some i.toNat else none)
  else (if (n : Int) + i < 0 then none else some ((n : Int) + i).toNat)

/-- The raw double-subscript read `self.board[r][c]` with Python indexing
semantics; `none` is the IndexError case. -/
def pyGet (co : Core) (r c : Int) : Option Nat :=
  match pyIdx co.board.length r with
  | none => none
  | some r2 =>
    let row := co.board.getD r2 []
    match pyIdx row.length c with
    | none => none
    | some c2 => some (row.getD c2 0)

/-- The four axis directions `[(1, 0), (0, 1), (1, 1), (1, -1)]`, in the
order both `_check_win_at` and `_score_if_place` iterate them. -/
def dirs : List (Int × Int) := [(1, 0), (0, 1), (1, 1), (1, -1)]

/-- Fuel for the directional while-loops.  Every direction moves by 1 in at
least one axis each step and the loop guard keeps the point in range, so a
run never exceeds `max rows cols` steps; this fuel therefore never
truncates a walk the source would have continued. -/
def fuelOf (co : Core) : Nat := co.rows + co.cols + 5

/-- The while-loop of `_collect_line_positions` (and of `_contiguous`):
starting at `(rr, cc)` and stepping by `(dr, dc)`, collect the positions
while they stay in range and hold the given color. -/
def lineWalk (co : Core) (color : Nat) (dr dc : Int) :
    Nat → Int → Int → List (Int × Int)
  | 0, _, _ => []
  | fuel + 1, rr, cc =>
    if inB co rr cc && (co.cell rr cc == color) then
      (rr, cc) :: lineWalk co color dr dc fuel (rr + dr) (cc + dc)
    else []

/-- `_collect_line_positions(r, c, dr, dc)`: the contiguous same-color run
through `(r, c)` along `(dr, dc)`, as reversed backward walk ++ `(r, c)`
++ forward walk.  An unreadable center cell (IndexError) or an empty
center yields `[]`. -/
def collect_line_positions (co : Core) (r c dr dc : Int) : List (Int × Int) :=
  match pyGet co r c with
  | none => []
  | some color =>
    if color == 0 then []
    else
      let fwd := lineWalk co color dr dc (fuelOf co) (r + dr) (c + dc)
      let bwd := lineWalk co color (-dr) (-dc) (fuelOf co) (r - dr) (c - dc)
      bwd.reverse ++ (r, c) :: fwd

/-- The decision core of `_check_win_at(r, c)`: the first direction (in
`dirs` order) whose collected run has length at least 5, together with
that run; `none` when no direction qualifies or the cell is empty or
unreadable. -/
def winLineAt (co : Core) (r c : Int) : Option (List (Int × Int)) :=
  match pyGet co r c with
  | none => none
  | some color =>
    if color == 0 then none
    else
      dirs.findSome? fun d =>
        let line := collect_line_positions co r c d.1 d.2
        if 5 ≤ line.length then some line else none

/-- `_check_win_at` as a boolean (used on hypothetical boards). -/
def check_win_b (co : Core) (r c : Int) : Bool := (winLineAt co r c).isSome

/-- `_contiguous(r, c, dr, dc, player)`: the number of contiguous `player`
stones strictly beyond `(r, c)` in direction `(dr, dc)`, and whether the
first cell past that run is in range and empty (the open end).  The
while-loop count is the length of the corresponding `lineWalk`. -/
def contiguous (co : Core) (r c dr dc : Int) (player : Nat) : Nat × Bool :=
  let n := (lineWalk co player dr dc (fuelOf co) (r + dr) (c + dc)).length
  let rr := r + dr * ((n : Int) + 1)
  let cc := c + dc * ((n : Int) + 1)
  (n, inB co rr cc && (co.cell rr cc == 0))

/-- The per-direction score table of `_score_if_place` (counts 4, 3, 2 and
the `else` row, split on open ends). -/
def tier_value (count oe : Nat) : ℚ :=
  if count == 4 then (if oe == 2 then 2 * 10 ^ 6 else 2 * 10 ^ 5)
  else if count == 3 then (if oe == 2 then 4 * 10 ^ 4 else 6 * 10 ^ 3)
  else if count == 2 then (if oe == 2 then 600 else 160)
  else (if 1 ≤ oe then 30 else 6)

/-- For one direction: `count = 1 + left run + right run` and the number of
open ends, as computed by `_score_if_place`. -/
def dir_count_open (co : Core) (player : Nat) (r c : Int) (d : Int × Int) :
    Nat × Nat :=
  let lt := contiguous co r c (-d.1) (-d.2) player
  let rt := contiguous co r c d.1 d.2 player
  (1 + lt.1 + rt.1, (if lt.2 then 1 else 0) + (if rt.2 then 1 else 0))

/-- The centrality term `-0.5 * (|r - rows//2| + |c - cols//2|)`. -/
def center_bias (co : Core) (r c : Int) : ℚ :=
  -(1 / 2) *
    (((r - ((co.rows / 2 : Nat) : Int)).natAbs +
      (c - ((co.cols / 2 : Nat) : Int)).natAbs : Nat) : ℚ)

/-- `_score_if_place(player, r, c)`: `-1e18` on an occupied cell, `1e9` as
soon as some direction reaches `count >= 5`, otherwise the summed tier
table plus the centrality term.  An unreadable cell (IndexError, caught by
the source) scores `0.0`. -/
def score_if_place (co : Core) (player : Nat) (r c : Int) : ℚ :=
  match pyGet co r c with
  | none => 0
  | some v =>
    if v ≠ 0 then -(10 ^ 18)
    else
      let per := dirs.map (dir_count_open co player r c)
      if per.any (fun p => decide (5 ≤ p.1)) then 10 ^ 9
      else (per.map fun p => tier_value p.1 p.2).sum + center_bias co r c

/-- All coordinates in row-major order, the order of the comprehensions of
`_ai_generate_candidates` and of the loops of `_is_draw`. -/
def allCells (co : Core) : List (Nat × Nat) :=
  (List.range co.rows).flatMap fun r => (List.range co.cols).map fun c => (r, c)

/-- The occupied cells, row-major (`stones` in `_ai_generate_candidates`). -/
def stones_list (co : Core) : List (Nat × Nat) :=
  (allCells co).filter fun p => !(cellN co.board p.1 p.2 == 0)

/-- Whether some stone lies within Chebyshev distance 2 of `p`: exactly the
cells the `dr, dc in (-2..2)` loops of `_ai_generate_candidates` reach. -/
def near_stone (co : Core) (p : Nat × Nat) : Bool :=
  (stones_list co).any fun s =>
    decide (((p.1 : Int) - (s.1 : Int)).natAbs ≤ 2) &&
    decide (((p.2 : Int) - (s.2 : Int)).natAbs ≤ 2)

/-- The deduplicated candidate set `cand` of `_ai_generate_candidates`,
enumerated in row-major order (the source iterates a Python set whose
order is unspecified; order only influences tie-breaks of the sort). -/
def cand_cells (co : Core) : List (Nat × Nat) :=
  (allCells co).filter fun p => (cellN co.board p.1 p.2 == 0) && near_stone co p

/-- `1 if x == 2 else 2`: the opponent computation used by
`_ai_generate_candidates`, `_evaluate_board` and the recursion of
`_alpha_beta`. -/
def flip_to_move (x : Nat) : Nat := if x == 2 then 1 else 2

/-- The candidate ranking key `s_ai * 1.2 + s_op * 1.0` (offense for the AI
player plus defense), exactly as `_ai_generate_candidates` computes it. -/
def blend_score (co : Core) (p : Nat × Nat) : ℚ :=
  score_if_place co co.ai p.1 p.2 * (6 / 5) +
  score_if_place co (flip_to_move co.ai) p.1 p.2 * 1

/-- Descending order on scored candidates (`sort(key=score, reverse=True)`). -/
def scoreRel (a b : (Nat × Nat) × ℚ) : Prop := b.2 ≤ a.2

instance : DecidableRel scoreRel :=
  fun a b => inferInstanceAs (Decidable (b.2 ≤ a.2))

instance : IsTotal ((Nat × Nat) × ℚ) scoreRel := ⟨fun a b => le_total b.2 a.2⟩

instance : IsTrans ((Nat × Nat) × ℚ) scoreRel :=
  ⟨fun _ _ _ h1 h2 => le_trans h2 h1⟩

/-- Descending order on plain scores (`sort(reverse=True)`). -/
def qGE (a b : ℚ) : Prop := b ≤ a

instance : DecidableRel qGE := fun a b => inferInstanceAs (Decidable (b ≤ a))

instance : IsTotal ℚ qGE := ⟨fun a b => le_total b a⟩

instance : IsTrans ℚ qGE := ⟨fun _ _ _ h1 h2 => le_trans h2 h1⟩

instance : IsAntisymm ℚ qGE := ⟨fun _ _ h1 h2 => le_antisymm h2 h1⟩

/-- `_ai_generate_candidates()`: the single center cell on an empty board,
otherwise the candidate cells scored by `blend_score`, sorted descending
and truncated to `max(1, branch_limit)` with the branch limit 8 set in
`__init__`. -/
def ai_generate_candidates (co : Core) : List (Nat × Nat) :=
  if stones_list co = [] then [(co.rows / 2, co.cols / 2)]
  else
    let scored := (cand_cells co).map fun p => (p, blend_score co p)
    ((List.insertionSort scoreRel scored).take (max 1 8)).map Prod.fst

/-- `_evaluate_board(player)`: blend of the top-6 placement scores of
`player` and of the opponent over the generated candidates,
`ai_sum * 1.0 - op_sum * 1.05`; `0.0` without candidates. -/
def evaluate_board (co : Core) (player : Nat) : ℚ :=
  let cand := ai_generate_candidates co
  if cand = [] then 0
  else
    let op := flip_to_move player
    let ai_scores := cand.map fun p => score_if_place co player p.1 p.2
    let op_scores := cand.map fun p => score_if_place co op p.1 p.2
    ((List.insertionSort qGE ai_scores).take 6).sum * 1 -
      ((List.insertionSort qGE op_scores).take 6).sum * (21 / 20)

/-- In-place update `b[r][c] = v` at resolved natural indices. -/
def setBoard (b : List (List Nat)) (r c v : Nat) : List (List Nat) :=
  b.set r ((b.getD r []).set c v)

/-- Core after `board[r][c] = v` at natural coordinates. -/
def Core.setCell (co : Core) (r c v : Nat) : Core :=
  { co with board := setBoard co.board r c v }

/-- The mutable state of `GameGomokuDialog` that the game logic touches:
board and dimensions, `current_player`, `ai_player`, `_game_over`,
`_win_line`, and the reported outcome (status label / dialog). -/
structure Gomoku where
  rows : Nat
  cols : Nat
  board : List (List Nat)
  current_player : Nat
  ai_player : Nat
  game_over : Bool
  win_line : List (Int × Int)
  status : Outcome
deriving DecidableEq, Repr

/-- The read-only projection the scoring functions work on. -/
def Gomoku.core (g : Gomoku) : Core := ⟨g.rows, g.cols, g.board, g.ai_player⟩

/-- `self.board[r][c] = v` at natural coordinates (as used with the
in-range candidate coordinates inside `_alpha_beta`). -/
def Gomoku.setCell (g : Gomoku) (r c v : Nat) : Gomoku :=
  { g with board := setBoard g.board r c v }

/-- `self.board[r][c] = v` with full Python index resolution (as used by
`_place_current`, whose caller may pass any ints). -/
def pySet (g : Gomoku) (r c : Int) (v : Nat) : Gomoku :=
  match pyIdx g.board.length r with
  | none => g
  | some r2 =>
    let row := g.board.getD r2 []
    match pyIdx row.length c with
    | none => g
    | some c2 => { g with board := g.board.set r2 (row.set c2 v) }

/-- `_check_win_at(r, c)` with its side effect: when the first qualifying
direction is found, `self._win_line` is overwritten with that run and True
is returned; otherwise the state is untouched and False is returned. -/
def Gomoku.check_win_at (g : Gomoku) (r c : Int) : Gomoku × Bool :=
  match winLineAt g.core r c with
  | some line => ({ g with win_line := line }, true)
  | none => (g, false)

/-- `_is_draw()`: the board holds no empty cell. -/
def is_draw (co : Core) : Bool :=
  (allCells co).all fun p => !(cellN co.board p.1 p.2 == 0)

/-- `2 if current_player == 1 else 1`: the turn flip of `_place_current`. -/
def flip_player (x : Nat) : Nat := if x == 1 then 2 else 1

/-- `_place_current(r, c)`: reject when the game is over, the cell is
occupied, or reading `board[r][c]` raises (indices out of Python range);
otherwise place the current player's stone at the Python-resolved indices,
then check for a win through `(r, c)`, then for a draw, else flip the
turn.  The source never raises: its body is wrapped in try/except. -/
def Gomoku.place_current (g : Gomoku) (r c : Int) : Gomoku :=
  match pyGet g.core r c with
  | none => g
  | some v =>
    if g.game_over || !(v == 0) then g
    else
      let g1 := pySet g r c g.current_player
      let cw := g1.check_win_at r c
      if cw.2 then
        { cw.1 with game_over := true, status := Outcome.Win g.current_player }
      else if is_draw cw.1.core then
        { cw.1 with game_over := true, status := Outcome.Draw }
      else
        { cw.1 with current_player := flip_player g.current_player,
                    status := Outcome.Ongoing }

/-- The immediate-win score `1e12 - (3 - depth) * 1e6` assigned at a
maximizing node of `_alpha_beta` with remaining depth `d`. -/
def win_score_max (d : Nat) : ℚ := 10 ^ 12 - (3 - (d : ℚ)) * 10 ^ 6

/-- The immediate-loss score `-1e12 + (3 - depth) * 1e6` assigned at a
minimizing node of `_alpha_beta` with remaining depth `d`. -/
def win_score_min (d : Nat) : ℚ := -(10 ^ 12) + (3 - (d : ℚ)) * 10 ^ 6

/-- The maximizing candidate loop of `_alpha_beta`: place the stone, score
it (immediate win, or the recursive call `recur`), update best/alpha,
undo the placement unconditionally - also on the `beta <= alpha` break. -/
def ab_max_loop
    (recur : Gomoku → Nat → ℚ → ℚ → Gomoku × ℚ × Option (Nat × Nat))
    (dep tm : Nat) (g : Gomoku) (l : List (Nat × Nat)) (best : ℚ)
    (bm : Option (Nat × Nat)) (alpha beta : ℚ) :
    Gomoku × ℚ × Option (Nat × Nat) :=
  match l with
  | [] => (g, best, bm)
  | (r, c) :: rest =>
    let cw := (g.setCell r c tm).check_win_at r c
    if cw.2 then
      let score := win_score_max dep
      let best2 := if best < score then score else best
      let bm2 := if best < score then some (r, c) else bm
      let alpha2 := max alpha best2
      if beta ≤ alpha2 then (cw.1.setCell r c 0, best2, bm2)
      else ab_max_loop recur dep tm (cw.1.setCell r c 0) rest best2 bm2 alpha2 beta
    else
      let sub := recur cw.1 (flip_to_move tm) alpha beta
      let score := sub.2.1
      let best2 := if best < score then score else best
      let bm2 := if best < score then some (r, c) else bm
      let alpha2 := max alpha best2
      if beta ≤ alpha2 then (sub.1.setCell r c 0, best2, bm2)
      else ab_max_loop recur dep tm (sub.1.setCell r c 0) rest best2 bm2 alpha2 beta

/-- The minimizing candidate loop of `_alpha_beta`, symmetric to
`ab_max_loop`. -/
def ab_min_loop
    (recur : Gomoku → Nat → ℚ → ℚ → Gomoku × ℚ × Option (Nat × Nat))
    (dep tm : Nat) (g : Gomoku) (l : List (Nat × Nat)) (best : ℚ)
    (bm : Option (Nat × Nat)) (alpha beta : ℚ) :
    Gomoku × ℚ × Option (Nat × Nat) :=
  match l with
  | [] => (g, best, bm)
  | (r, c) :: rest =>
    let cw := (g.setCell r c tm).check_win_at r c
    if cw.2 then
      let score := win_score_min dep
      let best2 := if score < best then score else best
      let bm2 := if score < best then some (r, c) else bm
      let beta2 := min beta best2
      if beta2 ≤ alpha then (cw.1.setCell r c 0, best2, bm2)
      else ab_min_loop recur dep tm (cw.1.setCell r c 0) rest best2 bm2 alpha beta2
    else
      let sub := recur cw.1 (flip_to_move tm) alpha beta
      let score := sub.2.1
      let best2 := if score < best then score else best
      let bm2 := if score < best then some (r, c) else bm
      let beta2 := min beta best2
      if beta2 ≤ alpha then (sub.1.setCell r c 0, best2, bm2)
      else ab_min_loop recur dep tm (sub.1.setCell r c 0) rest best2 bm2 alpha beta2

/-- `_alpha_beta(depth, to_move, alpha, beta)`: leaf evaluation at depth 0
(the source treats any `depth <= 0` as a leaf), `(0.0, None)` without
candidates, otherwise the maximizing loop when `to_move` is the AI player
and the minimizing loop otherwise, threading the mutable dialog state. -/
def alpha_beta : Nat → Gomoku → Nat → ℚ → ℚ → Gomoku × ℚ × Option (Nat × Nat)
  | 0, g, _, _, _ => (g, evaluate_board g.core g.ai_player, none)
  | d + 1, g, tm, alpha, beta =>
    let cand := ai_generate_candidates g.core
    if cand = [] then (g, 0, none)
    else if tm == g.ai_player then
      ab_max_loop (fun g2 tm2 a2 b2 => alpha_beta d g2 tm2 a2 b2)
        (d + 1) tm g cand (-(10 ^ 18)) none alpha beta
    else
      ab_min_loop (fun g2 tm2 a2 b2 => alpha_beta d g2 tm2 a2 b2)
        (d + 1) tm g cand (10 ^ 18) none alpha beta

mutual

/-- Modelled from the spec: the value of one candidate under exhaustive
minimax at a maximizing node - the depth-biased immediate-win score when
the trial placement wins, otherwise the minimax value of the child
position (spec section 4.5, cross-check property of section 8). -/
def child_val_max (d : Nat) (co : Core) (tm : Nat) (p : Nat × Nat) : ℚ :=
  let co1 := co.setCell p.1 p.2 tm
  if check_win_b co1 p.1 p.2 then win_score_max (d + 1)
  else minimax d co1 (flip_to_move tm)
termination_by (d, 1)

/-- Modelled from the spec: the candidate value at a minimizing node. -/
def child_val_min (d : Nat) (co : Core) (tm : Nat) (p : Nat × Nat) : ℚ :=
  let co1 := co.setCell p.1 p.2 tm
  if check_win_b co1 p.1 p.2 then win_score_min (d + 1)
  else minimax d co1 (flip_to_move tm)
termination_by (d, 1)

/-- Modelled from the spec: exhaustive minimax over the same candidate
tree, the same leaf evaluation and the same immediate-win scoring as
`_alpha_beta`, with no pruning (the reference of the cross-check property
"alpha-beta's returned score equals exhaustive minimax's score"). -/
def minimax : Nat → Core → Nat → ℚ
  | 0, co, _ => evaluate_board co co.ai
  | d + 1, co, tm =>
    let cand := ai_generate_candidates co
    if cand = [] then 0
    else if tm == co.ai then
      (cand.map (child_val_max d co tm)).foldl max (-(10 ^ 18))
    else
      (cand.map (child_val_min d co tm)).foldl min (10 ^ 18)
termination_by d => (d, 0)

end

/-- Whether at least 5 collinear contiguous same-color stones pass through
`(r, c)`: some window of 5 consecutive cells along one of the 4 axes
contains `(r, c)`, lies in range, and is monochromatic in the (nonzero)
color of `(r, c)`.  This is the specification-side reading of the win
condition. -/
def five_through (co : Core) (r c : Int) : Bool :=
  (!(co.cell r c == 0)) &&
  dirs.any fun d =>
    (List.range 5).any fun j =>
      (List.range 5).all fun i =>
        let o : Int := (i : Int) - (j : Int)
        inB co (r + o * d.1) (c + o * d.2) &&
        (co.cell (r + o * d.1) (c + o * d.2) == co.cell r c)

/-- Well-formedness of the board representation: the list of lists has
exactly `rows` rows of `cols` cells, as `__init__` builds it. -/
def WFc (co : Core) : Prop :=
  co.board.length = co.rows ∧ ∀ row ∈ co.board, row.length = co.cols

instance (co : Core) : Decidable (WFc co) := by
  unfold WFc; infer_instance

/-- Well-formedness of the dialog state. -/
def Gomoku.WF (g : Gomoku) : Prop := WFc g.core

instance (g : Gomoku) : Decidable g.WF :=
  inferInstanceAs (Decidable (WFc g.core))

/-- An all-empty board of the given size, as `__init__` builds it. -/
def emptyBoard (rows cols : Nat) : List (List Nat) :=
  List.replicate rows (List.replicate cols 0)

/-- The freshly initialised 15x15 dialog state: empty board, black to
move, AI playing white, game running. -/
def initState : Gomoku :=
  { rows := 15, cols := 15, board := emptyBoard 15 15, current_player := 1,
    ai_player := 2, game_over := false, win_line := [],
    status := Outcome.Ongoing }

/-- A tiny well-formed state used to instantiate universally quantified
theorems: a 1x1 empty board. -/
def tinyState : Gomoku :=
  { rows := 1, cols := 1, board := [[0]], current_player := 1,
    ai_player := 2, game_over := false, win_line := [],
    status := Outcome.Ongoing }

/-- A 3x4 board with a single stone at (1, 1): all 11 empty cells lie
within Chebyshev distance 2 of it, so candidate generation has more
candidates than the branch limit 8 and must drop the lowest-scoring
ones. -/
def wideState : Core :=
  { rows := 3, cols := 4, board := [[0, 0, 0, 0], [0, 1, 0, 0], [0, 0, 0, 0]],
    ai := 1 }

/-- A 1x7 state where the AI (playing color 1) has four in a row with an
open end: the search's first trial placement at (0, 4) wins and records a
win line that exists on no real board. -/
def leakState : Gomoku :=
  { rows := 1, cols := 7, board := [[1, 1, 1, 1, 0, 0, 0]],
    current_player := 1, ai_player := 1, game_over := false, win_line := [],
    status := Outcome.Ongoing }

/-- A 1x7 board that already holds five in a row of color 1. -/
def fiveState : Gomoku :=
  { rows := 1, cols := 7, board := [[1, 1, 1, 1, 1, 0, 0]],
    current_player := 2, ai_player := 2, game_over := false, win_line := [],
    status := Outcome.Ongoing }

/-!  ## Theorems  -/

theorem list_set_getD {α : Type} (l : List α) (n : Nat) (d : α) :
    l.set n (l.getD n d) = l := by
  induction l generalizing n with
  | nil => simp
  | cons x xs ih =>
    cases n with
    | zero => simp
    | succ m => simp only [List.getD_cons_succ, List.set_cons_succ, ih]

theorem getD_set_self {α : Type} (l : List α) (n : Nat) (a d : α)
    (h : n < l.length) : (l.set n a).getD n d = a := by
  simp [List.getD, List.getElem?_set_self, h]

theorem setBoard_setBoard (b : List (List Nat)) (r c v w : Nat) :
    setBoard (setBoard b r c v) r c w = setBoard b r c w := by
  unfold setBoard
  rw [List.set_set]
  by_cases h : r < b.length
  · rw [getD_set_self _ _ _ _ h, List.set_set]
  · push_neg at h
    simp only [List.set_eq_of_length_le h]

theorem setBoard_restore (b : List (List Nat)) (r c v : Nat)
    (h : cellN b r c = 0) : setBoard (setBoard b r c v) r c 0 = b := by
  rw [setBoard_setBoard]
  unfold setBoard
  have h2 : (b.getD r []).set c 0 = b.getD r [] := by
    have h3 := list_set_getD (b.getD r []) c (0 : Nat)
    rwa [show (b.getD r []).getD c 0 = 0 from h] at h3
  rw [h2, list_set_getD]

theorem WFc_setCell (co : Core) (r c v : Nat) (h : WFc co) :
    WFc (co.setCell r c v) := by
  obtain ⟨h1, h2⟩ := h
  by_cases hr : r < co.board.length
  · constructor
    · simpa [Core.setCell, setBoard] using h1
    · intro row hrow
      simp only [Core.setCell, setBoard] at hrow
      rcases List.mem_or_eq_of_mem_set hrow with h3 | h3
      · exact h2 row h3
      · subst h3
        rw [List.length_set]
        exact h2 _ (by rw [List.getD_eq_getElem _ _ hr]; exact List.getElem_mem hr)
  · push_neg at hr
    have he : co.setCell r c v = co := by
      simp [Core.setCell, setBoard, List.set_eq_of_length_le hr]
    rw [he]; exact ⟨h1, h2⟩

theorem core_board (g : Gomoku) : g.core.board = g.board := rfl

theorem setCell_core (g : Gomoku) (r c v : Nat) :
    (g.setCell r c v).core = g.core.setCell r c v := rfl

theorem setCell_board (g : Gomoku) (r c v : Nat) :
    (g.setCell r c v).board = setBoard g.board r c v := rfl

theorem check_win_at_core (g : Gomoku) (r c : Int) :
    ((g.check_win_at r c).1).core = g.core := by
  unfold Gomoku.check_win_at
  cases winLineAt g.core r c <;> rfl

theorem check_win_at_snd (g : Gomoku) (r c : Int) :
    (g.check_win_at r c).2 = check_win_b g.core r c := by
  unfold Gomoku.check_win_at check_win_b
  cases winLineAt g.core r c <;> rfl

theorem setCell_setCell_core (g : Gomoku) (r c v w : Nat) :
    ((g.setCell r c v).setCell r c w).core = (g.setCell r c w).core := by
  simp only [setCell_core, Core.setCell]
  rw [setBoard_setBoard]

theorem core_setCell_restore (g : Gomoku) (r c : Nat) (v : Nat)
    (h : cellN g.board r c = 0) :
    (g.core.setCell r c v).setCell r c 0 = g.core := by
  simp only [Core.setCell]
  rw [show g.core.board = g.board from rfl, setBoard_restore g.board r c v h]
  rfl

theorem mem_allCells (co : Core) (p : Nat × Nat) :
    p ∈ allCells co ↔ p.1 < co.rows ∧ p.2 < co.cols := by
  obtain ⟨a, b⟩ := p
  simp [allCells, List.mem_flatMap, List.mem_map, List.mem_range]

theorem mem_cand_cells {co : Core} {p : Nat × Nat} (h : p ∈ cand_cells co) :
    p ∈ allCells co ∧ cellN co.board p.1 p.2 = 0 ∧ near_stone co p = true := by
  unfold cand_cells at h
  rw [List.mem_filter] at h
  refine ⟨h.1, ?_, ?_⟩
  · have h2 := h.2
    simp only [Bool.and_eq_true, beq_iff_eq] at h2
    exact h2.1
  · have h2 := h.2
    simp only [Bool.and_eq_true] at h2
    exact h2.2

theorem stones_nil_cell_zero {co : Core} (hs : stones_list co = [])
    (p : Nat × Nat) (hp : p ∈ allCells co) : cellN co.board p.1 p.2 = 0 := by
  by_contra hne
  have hmem : p ∈ stones_list co := by
    unfold stones_list
    rw [List.mem_filter]
    exact ⟨hp, by simpa using hne⟩
  rw [hs] at hmem
  simp at hmem

theorem center_cell_zero {co : Core} (hwf : WFc co)
    (hs : stones_list co = []) :
    cellN co.board (co.rows / 2) (co.cols / 2) = 0 := by
  by_cases hr : 0 < co.rows
  · by_cases hc : 0 < co.cols
    · refine stones_nil_cell_zero hs (co.rows / 2, co.cols / 2)
        ((mem_allCells co (co.rows / 2, co.cols / 2)).2 ?_)
      exact ⟨Nat.div_lt_self hr one_lt_two, Nat.div_lt_self hc one_lt_two⟩
    · have hc0 : co.cols = 0 := Nat.eq_zero_of_not_pos hc
      unfold cellN
      by_cases hlen : co.rows / 2 < co.board.length
      · have hmem : co.board.getD (co.rows / 2) [] ∈ co.board := by
          rw [List.getD_eq_getElem _ _ hlen]; exact List.getElem_mem hlen
        have hlen2 := hwf.2 _ hmem
        rw [hc0] at hlen2
        rw [List.length_eq_zero.mp hlen2]
        rfl
      · push_neg at hlen
        rw [List.getD_eq_default _ _ hlen]
        rfl
  · have hr0 : co.rows = 0 := Nat.eq_zero_of_not_pos hr
    have hb : co.board = [] := by
      have := hwf.1
      rw [hr0] at this
      exact List.length_eq_zero.mp this
    unfold cellN
    rw [hb]
    rfl

theorem cand_empty {co : Core} (hwf : WFc co) :
    ∀ p ∈ ai_generate_candidates co, cellN co.board p.1 p.2 = 0 := by
  intro p hp
  unfold ai_generate_candidates at hp
  by_cases hs : stones_list co = []
  · rw [if_pos hs] at hp
    simp only [List.mem_singleton] at hp
    rw [hp]
    exact center_cell_zero hwf hs
  · rw [if_neg hs] at hp
    simp only [List.mem_map] at hp
    obtain ⟨q, hq, hql⟩ := hp
    have hq2 := List.mem_of_mem_take hq
    have hperm := List.perm_insertionSort scoreRel
      ((cand_cells co).map fun p => (p, blend_score co p))
    have hq3 := hperm.mem_iff.mp hq2
    rw [List.mem_map] at hq3
    obtain ⟨p2, hp2, hp2e⟩ := hq3
    have hcc := mem_cand_cells hp2
    rw [← hql, ← hp2e]
    exact hcc.2.1

theorem ab_max_loop_core
    (recur : Gomoku → Nat → ℚ → ℚ → Gomoku × ℚ × Option (Nat × Nat))
    (dep tm : Nat)
    (hrec : ∀ g2 tm2 a2 b2, WFc g2.core → ((recur g2 tm2 a2 b2).1).core = g2.core) :
    ∀ (l : List (Nat × Nat)) (g : Gomoku) (best : ℚ) (bm : Option (Nat × Nat))
      (alpha beta : ℚ), WFc g.core →
      (∀ p ∈ l, cellN g.board p.1 p.2 = 0) →
      ((ab_max_loop recur dep tm g l best bm alpha beta).1).core = g.core := by
  intro l
  induction l with
  | nil =>
    intro g best bm alpha beta hwf hl
    simp [ab_max_loop]
  | cons x rest ih =>
    intro g best bm alpha beta hwf hl
    obtain ⟨r, c⟩ := x
    have hx0 : cellN g.board r c = 0 := hl (r, c) (List.mem_cons_self _ _)
    have hwf1 : WFc ((g.setCell r c tm).core) := by
      rw [setCell_core]
      exact WFc_setCell _ _ _ _ hwf
    have hcwcore : (((g.setCell r c tm).check_win_at ↑r ↑c).1).core
        = g.core.setCell r c tm := by
      rw [check_win_at_core, setCell_core]
    have hundo : ∀ h : Gomoku, h.core = g.core.setCell r c tm →
        (h.setCell r c 0).core = g.core := by
      intro h hh
      rw [setCell_core, hh]
      exact core_setCell_restore g r c tm hx0
    have hloop : ∀ h : Gomoku, h.core = g.core →
        ∀ (b2 : ℚ) (m2 : Option (Nat × Nat)) (a2 e2 : ℚ),
        ((ab_max_loop recur dep tm h rest b2 m2 a2 e2).1).core = g.core := by
      intro h hh b2 m2 a2 e2
      rw [ih h b2 m2 a2 e2 (by rw [hh]; exact hwf)
        (by intro p hp
            have hbd : h.board = g.board := congrArg Core.board hh
            rw [hbd]
            exact hl p (List.mem_cons_of_mem _ hp))]
      exact hh
    simp only [ab_max_loop]
    cases hcw : ((g.setCell r c tm).check_win_at (r : Int) (c : Int)).2 with
    | true =>
      rw [if_pos rfl]
      have hS : ((((g.setCell r c tm).check_win_at (r : Int) (c : Int)).1).setCell
          r c 0).core = g.core := hundo _ hcwcore
      split_ifs <;> first
        | exact hS
        | exact hloop _ hS _ _ _ _
    | false =>
      rw [if_neg Bool.false_ne_true]
      have hsubcore : ((recur (((g.setCell r c tm).check_win_at (r : Int) (c : Int)).1)
          (flip_to_move tm) alpha beta).1).core = g.core.setCell r c tm := by
        rw [hrec _ _ _ _ (by rw [hcwcore]; exact WFc_setCell _ _ _ _ hwf)]
        exact hcwcore
      have hS : (((recur (((g.setCell r c tm).check_win_at (r : Int) (c : Int)).1)
          (flip_to_move tm) alpha beta).1).setCell r c 0).core = g.core :=
        hundo _ hsubcore
      split_ifs <;> first
        | exact hS
        | exact hloop _ hS _ _ _ _

theorem ab_min_loop_core
    (recur : Gomoku → Nat → ℚ → ℚ → Gomoku × ℚ × Option (Nat × Nat))
    (dep tm : Nat)
    (hrec : ∀ g2 tm2 a2 b2, WFc g2.core → ((recur g2 tm2 a2 b2).1).core = g2.core) :
    ∀ (l : List (Nat × Nat)) (g : Gomoku) (best : ℚ) (bm : Option (Nat × Nat))
      (alpha beta : ℚ), WFc g.core →
      (∀ p ∈ l, cellN g.board p.1 p.2 = 0) →
      ((ab_min_loop recur dep tm g l best bm alpha beta).1).core = g.core := by
  intro l
  induction l with
  | nil =>
    intro g best bm alpha beta hwf hl
    simp [ab_min_loop]
  | cons x rest ih =>
    intro g best bm alpha beta hwf hl
    obtain ⟨r, c⟩ := x
    have hx0 : cellN g.board r c = 0 := hl (r, c) (List.mem_cons_self _ _)
    have hcwcore : (((g.setCell r c tm).check_win_at (r : Int) (c : Int)).1).core
        = g.core.setCell r c tm := by
      rw [check_win_at_core, setCell_core]
    have hundo : ∀ h : Gomoku, h.core = g.core.setCell r c tm →
        (h.setCell r c 0).core = g.core := by
      intro h hh
      rw [setCell_core, hh]
      exact core_setCell_restore g r c tm hx0
    have hloop : ∀ h : Gomoku, h.core = g.core →
        ∀ (b2 : ℚ) (m2 : Option (Nat × Nat)) (a2 e2 : ℚ),
        ((ab_min_loop recur dep tm h rest b2 m2 a2 e2).1).core = g.core := by
      intro h hh b2 m2 a2 e2
      rw [ih h b2 m2 a2 e2 (by rw [hh]; exact hwf)
        (by intro p hp
            have hbd : h.board = g.board := congrArg Core.board hh
            rw [hbd]
            exact hl p (List.mem_cons_of_mem _ hp))]
      exact hh
    simp only [ab_min_loop]
    cases hcw : ((g.setCell r c tm).check_win_at (r : Int) (c : Int)).2 with
    | true =>
      rw [if_pos rfl]
      have hS : ((((g.setCell r c tm).check_win_at (r : Int) (c : Int)).1).setCell
          r c 0).core = g.core := hundo _ hcwcore
      split_ifs <;> first
        | exact hS
        | exact hloop _ hS _ _ _ _
    | false =>
      rw [if_neg Bool.false_ne_true]
      have hsubcore : ((recur (((g.setCell r c tm).check_win_at (r : Int) (c : Int)).1)
          (flip_to_move tm) alpha beta).1).core = g.core.setCell r c tm := by
        rw [hrec _ _ _ _ (by rw [hcwcore]; exact WFc_setCell _ _ _ _ hwf)]
        exact hcwcore
      have hS : (((recur (((g.setCell r c tm).check_win_at (r : Int) (c : Int)).1)
          (flip_to_move tm) alpha beta).1).setCell r c 0).core = g.core :=
        hundo _ hsubcore
      split_ifs <;> first
        | exact hS
        | exact hloop _ hS _ _ _ _

theorem alpha_beta_core :
    ∀ (d : Nat) (g : Gomoku) (tm : Nat) (alpha beta : ℚ), WFc g.core →
      ((alpha_beta d g tm alpha beta).1).core = g.core := by
  intro d
  induction d with
  | zero => intro g tm alpha beta hwf; rfl
  | succ d ih =>
    intro g tm alpha beta hwf
    simp only [alpha_beta]
    split
    · rfl
    · split
      · exact ab_max_loop_core _ _ _ (fun g2 tm2 a2 b2 h2 => ih g2 tm2 a2 b2 h2)
          _ g _ _ _ _ hwf (cand_empty hwf)
      · exact ab_min_loop_core _ _ _ (fun g2 tm2 a2 b2 h2 => ih g2 tm2 a2 b2 h2)
          _ g _ _ _ _ hwf (cand_empty hwf)

/-- C1: for every well-formed board state, every depth, every side to move
and every (alpha, beta) window, a full `_alpha_beta` call leaves the board
deep-equal to its pre-call state on every exit path, including iterations
that trigger a `beta <= alpha` cutoff: each trial placement made during
the search is undone before the call returns. -/
theorem alpha_beta_restores_board (d : Nat) (g : Gomoku) (tm : Nat)
    (alpha beta : ℚ) (h : g.WF) :
    ((alpha_beta d g tm alpha beta).1).board = g.board :=
  congrArg Core.board (alpha_beta_core d g tm alpha beta h)

theorem alpha_beta_restores_board_witness :
    leakState.WF ∧
      ((alpha_beta 1 leakState 1 (-(10 ^ 18)) (10 ^ 18)).1).board
        = leakState.board :=
  ⟨by decide,
    alpha_beta_restores_board 1 leakState 1 (-(10 ^ 18)) (10 ^ 18) (by decide)⟩

theorem findSome_eq_some_mem {α β : Type} {f : α → Option β} :
    ∀ {l : List α} {b : β}, l.findSome? f = some b → ∃ a ∈ l, f a = some b := by
  intro l
  induction l with
  | nil => intro b h; simp [List.findSome?] at h
  | cons x xs ih =>
    intro b h
    rw [List.findSome?_cons] at h
    cases hx : f x with
    | some v =>
      rw [hx] at h
      simp at h
      exact ⟨x, List.mem_cons_self x xs, by rw [hx, h]⟩
    | none =>
      rw [hx] at h
      simp at h
      obtain ⟨a, ha, hfa⟩ := ih h
      exact ⟨a, List.mem_cons_of_mem x ha, hfa⟩

theorem findSome_isSome_of_mem {α β : Type} {f : α → Option β} :
    ∀ {l : List α} {a : α}, a ∈ l → (f a).isSome → (l.findSome? f).isSome := by
  intro l
  induction l with
  | nil => intro a h; simp at h
  | cons x xs ih =>
    intro a ha hf
    rw [List.findSome?_cons]
    cases hx : f x with
    | some v => simp
    | none =>
      simp only []
      rcases List.mem_cons.mp ha with h | h
      · subst h; rw [hx] at hf; simp at hf
      · exact ih h hf

unseal Rat.add Rat.mul Rat.sub Rat.inv in
/-- C10 (implicit frame effect): every `_check_win_at` call that finds a
five-run overwrites the stored `_win_line` with that run - the first
qualifying direction's collected line - including calls made on
hypothetical trial placements inside `_alpha_beta`; consequently a full
search call restores the board but not `_win_line`: concretely, searching
`leakState` returns with the board intact while `_win_line` now holds
`[(0,0)..(0,4)]`, a line through `(0,4)`, which is empty on the real
board (and no five-run exists through `(0,0)` on the real board). -/
theorem check_win_overwrites_win_line :
    (∀ (g : Gomoku) (r c : Int) (line : List (Int × Int)),
        winLineAt g.core r c = some line →
          (g.check_win_at r c).1.win_line = line ∧ 5 ≤ line.length ∧
            ∃ d ∈ dirs, line = collect_line_positions g.core r c d.1 d.2) ∧
    ((alpha_beta 1 leakState 1 (-(10 ^ 18)) (10 ^ 18)).1.board = leakState.board ∧
      (alpha_beta 1 leakState 1 (-(10 ^ 18)) (10 ^ 18)).1.win_line
        = [(0, 0), (0, 1), (0, 2), (0, 3), (0, 4)] ∧
      leakState.win_line = [] ∧
      leakState.core.cell 0 4 = 0 ∧
      five_through leakState.core 0 0 = false) := by
  constructor
  · intro g r c line h
    refine ⟨?_, ?_⟩
    · unfold Gomoku.check_win_at
      rw [h]
    · have h2 := h
      unfold winLineAt at h2
      split at h2
      · simp at h2
      · split at h2
        · simp at h2
        · obtain ⟨d, hd, hfd⟩ := findSome_eq_some_mem h2
          simp only [] at hfd
          by_cases hlen : 5 ≤ (collect_line_positions g.core r c d.1 d.2).length
          · rw [if_pos hlen] at hfd
            have h4 : line = collect_line_positions g.core r c d.1 d.2 := by
              injection hfd with h3; exact h3.symm
            exact ⟨by rw [h4]; exact hlen, d, hd, h4⟩
          · rw [if_neg hlen] at hfd; simp at hfd
  · refine ⟨?_, by decide, by decide, by decide, by decide⟩
    exact alpha_beta_restores_board 1 leakState 1 (-(10 ^ 18)) (10 ^ 18) (by decide)

theorem check_win_overwrites_win_line_witness :
    (fiveState.check_win_at 0 2).1.win_line
        = [(0, 0), (0, 1), (0, 2), (0, 3), (0, 4)] ∧
      winLineAt fiveState.core 0 2
        = some [(0, 0), (0, 1), (0, 2), (0, 3), (0, 4)] :=
  ⟨(check_win_overwrites_win_line.1 fiveState 0 2
      [(0, 0), (0, 1), (0, 2), (0, 3), (0, 4)] (by decide)).1, by decide⟩

theorem lineWalk_colored (co : Core) (color : Nat) (dr dc : Int) :
    ∀ (fuel : Nat) (rr cc : Int) (i : Nat),
      i < (lineWalk co color dr dc fuel rr cc).length →
      inB co (rr + i * dr) (cc + i * dc) = true ∧
        co.cell (rr + i * dr) (cc + i * dc) = color := by
  intro fuel
  induction fuel with
  | zero => intro rr cc i h; simp [lineWalk] at h
  | succ f ih =>
    intro rr cc i h
    rw [lineWalk] at h
    by_cases hg : (inB co rr cc && (co.cell rr cc == color)) = true
    · rw [if_pos hg] at h
      simp only [Bool.and_eq_true, beq_iff_eq] at hg
      cases i with
      | zero =>
        simpa using hg
      | succ t =>
        rw [List.length_cons] at h
        have ht := ih (rr + dr) (cc + dc) t (Nat.lt_of_succ_lt_succ h)
        have e1 : rr + dr + (t : Int) * dr = rr + ((t : Nat) + 1 : Nat) * dr := by
          push_cast; ring
        have e2 : cc + dc + (t : Int) * dc = cc + ((t : Nat) + 1 : Nat) * dc := by
          push_cast; ring
        rw [e1, e2] at ht
        exact ht
    · rw [if_neg hg] at h
      simp at h

theorem lineWalk_length_ge (co : Core) (color : Nat) (dr dc : Int) :
    ∀ (k fuel : Nat) (rr cc : Int), k ≤ fuel →
      (∀ i : Nat, i < k → inB co (rr + i * dr) (cc + i * dc) = true ∧
        co.cell (rr + i * dr) (cc + i * dc) = color) →
      k ≤ (lineWalk co color dr dc fuel rr cc).length := by
  intro k
  induction k with
  | zero => intro fuel rr cc hf hcells; exact Nat.zero_le _
  | succ t ih =>
    intro fuel rr cc hf hcells
    cases fuel with
    | zero => exact absurd hf (by omega)
    | succ f =>
      have h0 := hcells 0 (Nat.succ_pos t)
      simp only [Nat.cast_zero, zero_mul, add_zero] at h0
      rw [lineWalk, if_pos (by simp only [Bool.and_eq_true, beq_iff_eq]; exact ⟨h0.1, h0.2⟩)]
      rw [List.length_cons]
      have ih2 := ih f (rr + dr) (cc + dc) (Nat.le_of_succ_le_succ hf)
        (by
          intro i hi
          have hc2 := hcells (i + 1) (by omega)
          have e1 : rr + ((i : Nat) + 1 : Nat) * dr = rr + dr + (i : Int) * dr := by
            push_cast; ring
          have e2 : cc + ((i : Nat) + 1 : Nat) * dc = cc + dc + (i : Int) * dc := by
            push_cast; ring
          rw [e1, e2] at hc2
          exact hc2)
      omega

theorem cell_natCast (co : Core) (r c : Nat) :
    co.cell (r : Int) (c : Int) = cellN co.board r c := by
  simp [Core.cell]

theorem getD_mem_of_lt {α : Type} (l : List α) (d : α) {n : Nat}
    (h : n < l.length) : l.getD n d ∈ l := by
  rw [List.getD_eq_getElem l d h]
  exact List.getElem_mem h

theorem pyGet_in_range {co : Core} (hwf : WFc co) {r c : Nat}
    (hr : r < co.rows) (hc : c < co.cols) :
    pyGet co (r : Int) (c : Int) = some (cellN co.board r c) := by
  have hlen : co.board.length = co.rows := hwf.1
  have hidx1 : pyIdx co.board.length (r : Int) = some r := by
    unfold pyIdx
    rw [if_pos (by positivity)]
    rw [if_pos (by exact_mod_cast hlen ▸ hr)]
    simp
  have hrlen : (co.board.getD r []).length = co.cols :=
    hwf.2 _ (getD_mem_of_lt co.board [] (hlen ▸ hr))
  have hidx2 : pyIdx (co.board.getD r []).length (c : Int) = some c := by
    unfold pyIdx
    rw [if_pos (by positivity)]
    rw [if_pos (by exact_mod_cast hrlen ▸ hc)]
    simp
  simp only [pyGet, hidx1, hidx2]
  rfl

theorem inB_of_range {co : Core} {r c : Nat} (hr : r < co.rows)
    (hc : c < co.cols) : inB co (r : Int) (c : Int) = true := by
  simp only [inB, Bool.and_eq_true, decide_eq_true_eq]
  refine ⟨⟨⟨by positivity, by exact_mod_cast hr⟩, by positivity⟩, by exact_mod_cast hc⟩

theorem five_through_iff (co : Core) (r c : Int) :
    five_through co r c = true ↔
      co.cell r c ≠ 0 ∧ ∃ d ∈ dirs, ∃ j : Nat, j < 5 ∧ ∀ i : Nat, i < 5 →
        inB co (r + ((i : Int) - (j : Int)) * d.1)
            (c + ((i : Int) - (j : Int)) * d.2) = true ∧
          co.cell (r + ((i : Int) - (j : Int)) * d.1)
            (c + ((i : Int) - (j : Int)) * d.2) = co.cell r c := by
  unfold five_through
  simp only [Bool.and_eq_true, Bool.not_eq_true', beq_eq_false_iff_ne,
    List.any_eq_true, List.all_eq_true, List.mem_range, beq_iff_eq]

theorem collect_line_decomp {co : Core} {r c : Int} {color : Nat}
    (hpg : pyGet co r c = some color) (h0 : color ≠ 0) (dr dc : Int) :
    collect_line_positions co r c dr dc =
      (lineWalk co color (-dr) (-dc) (fuelOf co) (r - dr) (c - dc)).reverse ++
        (r, c) :: lineWalk co color dr dc (fuelOf co) (r + dr) (c + dc) := by
  simp only [collect_line_positions, hpg]
  rw [if_neg (by simp [h0])]

theorem collect_line_length {co : Core} {r c : Int} {color : Nat}
    (hpg : pyGet co r c = some color) (h0 : color ≠ 0) (dr dc : Int) :
    (collect_line_positions co r c dr dc).length =
      (lineWalk co color (-dr) (-dc) (fuelOf co) (r - dr) (c - dc)).length + 1 +
        (lineWalk co color dr dc (fuelOf co) (r + dr) (c + dc)).length := by
  rw [collect_line_decomp hpg h0 dr dc]
  simp [List.length_append]
  omega

theorem window_of_runs {co : Core} {color : Nat} {r c : Int} (dr dc : Int)
    (hctr : inB co r c = true ∧ co.cell r c = color) (B F : Nat)
    (hB : ∀ t : Nat, t < B →
      inB co (r - ((t : Int) + 1) * dr) (c - ((t : Int) + 1) * dc) = true ∧
        co.cell (r - ((t : Int) + 1) * dr) (c - ((t : Int) + 1) * dc) = color)
    (hF : ∀ t : Nat, t < F →
      inB co (r + ((t : Int) + 1) * dr) (c + ((t : Int) + 1) * dc) = true ∧
        co.cell (r + ((t : Int) + 1) * dr) (c + ((t : Int) + 1) * dc) = color)
    (hBF : 4 ≤ B + F) :
    ∃ j : Nat, j < 5 ∧ ∀ i : Nat, i < 5 →
      inB co (r + ((i : Int) - (j : Int)) * dr)
          (c + ((i : Int) - (j : Int)) * dc) = true ∧
        co.cell (r + ((i : Int) - (j : Int)) * dr)
          (c + ((i : Int) - (j : Int)) * dc) = color := by
  refine ⟨min B 4, by omega, ?_⟩
  intro i hi
  rcases Nat.lt_trichotomy i (min B 4) with hij | hij | hij
  · have ht := hB (min B 4 - i - 1) (by omega)
    have hxy : r - (((min B 4 - i - 1 : Nat) : Int) + 1) * dr
        = r + ((i : Int) - ((min B 4 : Nat) : Int)) * dr := by
      have he : (((min B 4 - i - 1 : Nat) : Int) + 1)
          = ((min B 4 : Nat) : Int) - (i : Int) := by omega
      rw [he]; ring
    have hxy2 : c - (((min B 4 - i - 1 : Nat) : Int) + 1) * dc
        = c + ((i : Int) - ((min B 4 : Nat) : Int)) * dc := by
      have he : (((min B 4 - i - 1 : Nat) : Int) + 1)
          = ((min B 4 : Nat) : Int) - (i : Int) := by omega
      rw [he]; ring
    rw [hxy, hxy2] at ht
    exact ht
  · have hz : ((i : Int) - ((min B 4 : Nat) : Int)) = 0 := by omega
    rw [hz]
    simpa using hctr
  · have ht := hF (i - min B 4 - 1) (by omega)
    have hxy : r + (((i - min B 4 - 1 : Nat) : Int) + 1) * dr
        = r + ((i : Int) - ((min B 4 : Nat) : Int)) * dr := by
      have he : (((i - min B 4 - 1 : Nat) : Int) + 1)
          = (i : Int) - ((min B 4 : Nat) : Int) := by omega
      rw [he]
    have hxy2 : c + (((i - min B 4 - 1 : Nat) : Int) + 1) * dc
        = c + ((i : Int) - ((min B 4 : Nat) : Int)) * dc := by
      have he : (((i - min B 4 - 1 : Nat) : Int) + 1)
          = (i : Int) - ((min B 4 : Nat) : Int) := by omega
      rw [he]
    rw [hxy, hxy2] at ht
    exact ht

theorem check_win_iff_five {co : Core} (hwf : WFc co) {r c : Nat}
    (hr : r < co.rows) (hc : c < co.cols) :
    check_win_b co (r : Int) (c : Int) = true ↔
      five_through co (r : Int) (c : Int) = true := by
  have hpg := pyGet_in_range hwf hr hc
  have hcell := cell_natCast co r c
  constructor
  · intro h
    unfold check_win_b at h
    rw [Option.isSome_iff_exists] at h
    obtain ⟨line, hline⟩ := h
    by_cases h0 : cellN co.board r c = 0
    · exfalso
      have hnone : winLineAt co (r : Int) (c : Int) = none := by
        simp [winLineAt, hpg, h0]
      rw [hnone] at hline
      exact Option.noConfusion hline
    · have hline2 : (dirs.findSome? fun d =>
          let l2 := collect_line_positions co (r : Int) (c : Int) d.1 d.2
          if 5 ≤ l2.length then some l2 else none) = some line := by
        have h3 := hline
        simp only [winLineAt, hpg] at h3
        rw [if_neg (by simp [h0])] at h3
        exact h3
      obtain ⟨d, hd, hfd⟩ := findSome_eq_some_mem hline2
      simp only [] at hfd
      by_cases hlen : 5 ≤ (collect_line_positions co (r : Int) (c : Int) d.1 d.2).length
      · rw [collect_line_length hpg h0 d.1 d.2] at hlen
        rw [five_through_iff]
        refine ⟨by rw [hcell]; exact h0, d, hd, ?_⟩
        have hwin := window_of_runs d.1 d.2
          (⟨inB_of_range hr hc, hcell⟩)
          (lineWalk co (cellN co.board r c) (-d.1) (-d.2) (fuelOf co)
            ((r : Int) - d.1) ((c : Int) - d.2)).length
          (lineWalk co (cellN co.board r c) d.1 d.2 (fuelOf co)
            ((r : Int) + d.1) ((c : Int) + d.2)).length
          (by
            intro t ht
            have hw := lineWalk_colored co (cellN co.board r c) (-d.1) (-d.2)
              (fuelOf co) ((r : Int) - d.1) ((c : Int) - d.2) t ht
            have e1 : (r : Int) - d.1 + (t : Int) * -d.1
                = (r : Int) - ((t : Int) + 1) * d.1 := by ring
            have e2 : (c : Int) - d.2 + (t : Int) * -d.2
                = (c : Int) - ((t : Int) + 1) * d.2 := by ring
            rw [e1, e2] at hw
            exact hw)
          (by
            intro t ht
            have hw := lineWalk_colored co (cellN co.board r c) d.1 d.2
              (fuelOf co) ((r : Int) + d.1) ((c : Int) + d.2) t ht
            have e1 : (r : Int) + d.1 + (t : Int) * d.1
                = (r : Int) + ((t : Int) + 1) * d.1 := by ring
            have e2 : (c : Int) + d.2 + (t : Int) * d.2
                = (c : Int) + ((t : Int) + 1) * d.2 := by ring
            rw [e1, e2] at hw
            exact hw)
          (by omega)
        obtain ⟨j, hj, hwnd⟩ := hwin
        refine ⟨j, hj, fun i hi => ?_⟩
        have hw := hwnd i hi
        exact ⟨hw.1, by rw [hcell]; exact hw.2⟩
      · rw [if_neg hlen] at hfd
        exact Option.noConfusion hfd
  · intro h
    rw [five_through_iff] at h
    obtain ⟨h0, d, hd, j, hj, hwnd⟩ := h
    rw [hcell] at h0
    unfold check_win_b
    have hlen : 5 ≤ (collect_line_positions co (r : Int) (c : Int) d.1 d.2).length := by
      rw [collect_line_length hpg h0 d.1 d.2]
      have hBge : j ≤ (lineWalk co (cellN co.board r c) (-d.1) (-d.2) (fuelOf co)
          ((r : Int) - d.1) ((c : Int) - d.2)).length := by
        apply lineWalk_length_ge co (cellN co.board r c) (-d.1) (-d.2) j (fuelOf co)
          ((r : Int) - d.1) ((c : Int) - d.2) (by unfold fuelOf; omega)
        intro t ht
        have hw := hwnd (j - t - 1) (by omega)
        have e1 : (r : Int) + (((j - t - 1 : Nat) : Int) - (j : Int)) * d.1
            = (r : Int) - d.1 + (t : Int) * -d.1 := by
          have he : (((j - t - 1 : Nat) : Int) - (j : Int)) = -((t : Int) + 1) := by
            omega
          rw [he]; ring
        have e2 : (c : Int) + (((j - t - 1 : Nat) : Int) - (j : Int)) * d.2
            = (c : Int) - d.2 + (t : Int) * -d.2 := by
          have he : (((j - t - 1 : Nat) : Int) - (j : Int)) = -((t : Int) + 1) := by
            omega
          rw [he]; ring
        rw [e1, e2] at hw
        exact ⟨hw.1, by rw [← hcell]; exact hw.2⟩
      have hFge : (4 - j) ≤ (lineWalk co (cellN co.board r c) d.1 d.2 (fuelOf co)
          ((r : Int) + d.1) ((c : Int) + d.2)).length := by
        apply lineWalk_length_ge co (cellN co.board r c) d.1 d.2 (4 - j) (fuelOf co)
          ((r : Int) + d.1) ((c : Int) + d.2) (by unfold fuelOf; omega)
        intro t ht
        have hw := hwnd (j + t + 1) (by omega)
        have e1 : (r : Int) + (((j + t + 1 : Nat) : Int) - (j : Int)) * d.1
            = (r : Int) + d.1 + (t : Int) * d.1 := by
          have he : (((j + t + 1 : Nat) : Int) - (j : Int)) = (t : Int) + 1 := by
            omega
          rw [he]; ring
        have e2 : (c : Int) + (((j + t + 1 : Nat) : Int) - (j : Int)) * d.2
            = (c : Int) + d.2 + (t : Int) * d.2 := by
          have he : (((j + t + 1 : Nat) : Int) - (j : Int)) = (t : Int) + 1 := by
            omega
          rw [he]; ring
        rw [e1, e2] at hw
        exact ⟨hw.1, by rw [← hcell]; exact hw.2⟩
      omega
    have hsome : (winLineAt co (r : Int) (c : Int)).isSome = true := by
      simp only [winLineAt, hpg]
      rw [if_neg (by simp [h0])]
      apply findSome_isSome_of_mem hd
      simp [hlen]
    exact hsome

/-- C2: for every well-formed board and every cell (r, c) of it, the win
check `_check_win_at(r, c)` returns True if and only if at least 5
collinear contiguous same-color stones pass through (r, c) along one of
the 4 axes (horizontal, vertical, both diagonals): the run collected as
reversed backward walk ++ (r, c) ++ forward walk reaches length 5 exactly
when such a monochromatic 5-window through (r, c) exists. -/
theorem check_win_at_iff_five_through (g : Gomoku) (r c : Nat) (hwf : g.WF)
    (hr : r < g.rows) (hc : c < g.cols) :
    (g.check_win_at (r : Int) (c : Int)).2 = true ↔
      five_through g.core (r : Int) (c : Int) = true := by
  rw [check_win_at_snd]
  exact check_win_iff_five hwf hr hc

theorem check_win_at_iff_five_through_witness :
    (fiveState.check_win_at ((0 : Nat) : Int) ((2 : Nat) : Int)).2 = true :=
  (check_win_at_iff_five_through fiveState 0 2 (by decide) (by decide)
    (by decide)).mpr (by decide)

theorem pySet_in_range {g : Gomoku} (hwf : g.WF) {r c : Nat}
    (hr : r < g.rows) (hc : c < g.cols) (v : Nat) :
    pySet g (r : Int) (c : Int) v = g.setCell r c v := by
  have hlen : g.board.length = g.rows := hwf.1
  have hidx1 : pyIdx g.board.length (r : Int) = some r := by
    unfold pyIdx
    rw [if_pos (by positivity)]
    rw [if_pos (by exact_mod_cast hlen ▸ hr)]
    simp
  have hrlen : (g.board.getD r []).length = g.cols :=
    hwf.2 _ (getD_mem_of_lt g.board [] (hlen ▸ hr))
  have hidx2 : pyIdx (g.board.getD r []).length (c : Int) = some c := by
    unfold pyIdx
    rw [if_pos (by positivity)]
    rw [if_pos (by exact_mod_cast hrlen ▸ hc)]
    simp
  simp only [pySet, hidx1, hidx2]
  rfl

theorem check_win_at_game_over (g : Gomoku) (r c : Int) :
    ((g.check_win_at r c).1).game_over = g.game_over := by
  unfold Gomoku.check_win_at
  cases winLineAt g.core r c <;> rfl

theorem is_draw_iff (co : Core) :
    is_draw co = true ↔
      ∀ i j : Nat, i < co.rows → j < co.cols → cellN co.board i j ≠ 0 := by
  unfold is_draw
  simp only [List.all_eq_true, Bool.not_eq_true', beq_eq_false_iff_ne]
  constructor
  · intro h i j hi hj
    exact h (i, j) ((mem_allCells co (i, j)).mpr ⟨hi, hj⟩)
  · intro h p hp
    have hm := (mem_allCells co p).mp hp
    exact h p.1 p.2 hm.1 hm.2

/-- C9: for every accepted placement on a well-formed board, the
controller reaches a terminal state exactly when a 5-run passes through
the placed cell or the board is full; a full board without such a run is
reported as a Draw (no exception), and a win through the placed stone is
reported as a win for the placing player; otherwise the game continues. -/
theorem place_current_terminal (g : Gomoku) (r c : Nat) (hwf : g.WF)
    (hgo : g.game_over = false) (hr : r < g.rows) (hc : c < g.cols)
    (hempty : cellN g.board r c = 0) :
    ((g.place_current (r : Int) (c : Int)).game_over = true ↔
        (five_through (g.setCell r c g.current_player).core (r : Int) (c : Int) = true ∨
          is_draw (g.setCell r c g.current_player).core = true)) ∧
      (five_through (g.setCell r c g.current_player).core (r : Int) (c : Int) = true →
        (g.place_current (r : Int) (c : Int)).status = Outcome.Win g.current_player) ∧
      (five_through (g.setCell r c g.current_player).core (r : Int) (c : Int) = false →
        is_draw (g.setCell r c g.current_player).core = true →
        (g.place_current (r : Int) (c : Int)).status = Outcome.Draw) ∧
      (five_through (g.setCell r c g.current_player).core (r : Int) (c : Int) = false →
        is_draw (g.setCell r c g.current_player).core = false →
        (g.place_current (r : Int) (c : Int)).game_over = false ∧
          (g.place_current (r : Int) (c : Int)).status = Outcome.Ongoing) := by
  have hpg0 : pyGet g.core (r : Int) (c : Int) = some 0 := by
    rw [pyGet_in_range hwf hr hc]
    exact congrArg some hempty
  have hwf1 : WFc ((g.setCell r c g.current_player).core) := by
    rw [setCell_core]
    exact WFc_setCell _ _ _ _ hwf
  have hiff := check_win_iff_five hwf1 (r := r) (c := c) hr hc
  simp only [Gomoku.place_current, hpg0]
  rw [hgo]
  rw [if_neg (by decide)]
  rw [pySet_in_range hwf hr hc g.current_player]
  rw [check_win_at_snd]
  cases hcw : check_win_b ((g.setCell r c g.current_player).core) (r : Int) (c : Int) with
  | true =>
    rw [if_pos rfl]
    have hfive : five_through (g.setCell r c g.current_player).core (r : Int) (c : Int)
        = true := hiff.mp hcw
    refine ⟨by simp [hfive], fun _ => rfl, fun hf _ => ?_, fun hf _ => ?_⟩
    · rw [hfive] at hf; exact Bool.noConfusion hf
    · rw [hfive] at hf; exact Bool.noConfusion hf
  | false =>
    rw [if_neg Bool.false_ne_true]
    have hfive : five_through (g.setCell r c g.current_player).core (r : Int) (c : Int)
        = false := by
      cases hf : five_through (g.setCell r c g.current_player).core (r : Int) (c : Int) with
      | false => rfl
      | true => rw [hiff.mpr hf] at hcw; exact Bool.noConfusion hcw
    rw [check_win_at_core]
    cases hd : is_draw ((g.setCell r c g.current_player).core) with
    | true =>
      rw [if_pos rfl]
      refine ⟨by simp [hd], fun hf => ?_, fun _ _ => rfl, fun _ hd2 => ?_⟩
      · rw [hfive] at hf; exact Bool.noConfusion hf
      · exact Bool.noConfusion hd2
    | false =>
      rw [if_neg Bool.false_ne_true]
      refine ⟨?_, fun hf => ?_, fun _ hd2 => ?_, fun _ _ => ?_⟩
      · constructor
        · intro hgo2
          rw [check_win_at_game_over] at hgo2
          have hpres : (g.setCell r c g.current_player).game_over = g.game_over := rfl
          rw [hpres, hgo] at hgo2
          exact absurd hgo2 Bool.false_ne_true
        · intro hor
          rcases hor with hf | hd2
          · rw [hfive] at hf; exact Bool.noConfusion hf
          · exact Bool.noConfusion hd2
      · rw [hfive] at hf; exact Bool.noConfusion hf
      · exact Bool.noConfusion hd2
      · constructor
        · rw [check_win_at_game_over]
          exact hgo
        · rfl

theorem place_current_terminal_witness :
    (tinyState.place_current ((0 : Nat) : Int) ((0 : Nat) : Int)).status
      = Outcome.Draw :=
  (place_current_terminal tinyState 0 0 (by decide) (by decide) (by decide)
    (by decide) (by decide)).2.2.1 (by decide) (by decide)

theorem pyIdx_lt {n : Nat} {i : Int} {m : Nat} (h : pyIdx n i = some m) :
    m < n := by
  unfold pyIdx at h
  by_cases h0 : 0 ≤ i
  · rw [if_pos h0] at h
    by_cases h1 : i < (n : Int)
    · rw [if_pos h1] at h
      injection h with h2
      omega
    · rw [if_neg h1] at h
      exact Option.noConfusion h
  · rw [if_neg h0] at h
    by_cases h1 : (n : Int) + i < 0
    · rw [if_pos h1] at h
      exact Option.noConfusion h
    · rw [if_neg h1] at h
      injection h with h2
      omega

theorem pyGet_resolved {g : Gomoku} (hwf : g.WF) (r c : Int) :
    pyGet g.core r c =
      match pyIdx g.rows r with
      | none => none
      | some r2 =>
        match pyIdx g.cols c with
        | none => none
        | some c2 => some (cellN g.board r2 c2) := by
  have hlen : g.core.board.length = g.rows := hwf.1
  unfold pyGet
  rw [hlen]
  cases h1 : pyIdx g.rows r with
  | none => rfl
  | some r2 =>
    have hrlen : (g.core.board.getD r2 []).length = g.cols :=
      hwf.2 _ (getD_mem_of_lt g.core.board [] (hlen ▸ pyIdx_lt h1))
    simp only [hrlen]
    cases h2 : pyIdx g.cols c with
    | none => rfl
    | some c2 => rfl

/-- C3 counterexample: the coordinates (-1, 0) lie outside the 15x15
range, yet `_place_current(-1, 0)` on the fresh board does not fail: the
raw Python subscript wraps the negative row index to row 14, so the stone
is placed at (14, 0) and the turn flips - the board and the side to move
both change. -/
theorem place_current_out_of_range_mutates :
    (initState.place_current (-1) 0).board ≠ initState.board ∧
      cellN (initState.place_current (-1) 0).board 14 0
        = initState.current_player ∧
      cellN initState.board 14 0 = 0 ∧
      (initState.place_current (-1) 0).current_player = 2 := by
  refine ⟨?_, by decide, by decide, by decide⟩
  intro h
  have h2 : cellN (initState.place_current (-1) 0).board 14 0
      = cellN initState.board 14 0 := by rw [h]
  rw [show cellN (initState.place_current (-1) 0).board 14 0 = 1 from by decide,
    show cellN initState.board 14 0 = 0 from by decide] at h2
  exact absurd h2 (by decide)

/-- C3 (amended): for every well-formed state, `_place_current(r, c)`
never raises; it leaves the state unchanged whenever the game is already
over, or `r` is outside Python index range for 15 rows (`r >= rows` or
`r < -rows`), or likewise `c`, or the referenced cell - after Python
negative-index wrap-around - is occupied; when the game is running and
the (possibly wrapped) cell is empty, it places the current player's
stone at the wrapped indices.  The operation returns no boolean: failure
is observable only as the absence of a state change. -/
theorem place_current_amended (g : Gomoku) (r c : Int) (hwf : g.WF) :
    (g.game_over = true → g.place_current r c = g) ∧
      ((pyIdx g.rows r = none ∨ pyIdx g.cols c = none) →
        g.place_current r c = g) ∧
      (∀ r2 c2, pyIdx g.rows r = some r2 → pyIdx g.cols c = some c2 →
        (cellN g.board r2 c2 ≠ 0 → g.place_current r c = g) ∧
        (cellN g.board r2 c2 = 0 → g.game_over = false →
          (g.place_current r c).board = setBoard g.board r2 c2 g.current_player)) := by
  have hres := pyGet_resolved hwf r c
  refine ⟨?_, ?_, ?_⟩
  · intro hgo
    unfold Gomoku.place_current
    cases hpg : pyGet g.core r c with
    | none => rfl
    | some v =>
      simp only []
      rw [if_pos (by rw [hgo]; rfl)]
  · intro hor
    have hnone : pyGet g.core r c = none := by
      rw [hres]
      rcases hor with h1 | h1
      · rw [h1]
      · cases h2 : pyIdx g.rows r with
        | none => rfl
        | some r2 => simp only [h1]
    unfold Gomoku.place_current
    rw [hnone]
  · intro r2 c2 h1 h2
    have hsome : pyGet g.core r c = some (cellN g.board r2 c2) := by
      rw [hres, h1, h2]
    constructor
    · intro hocc
      unfold Gomoku.place_current
      rw [hsome]
      simp only []
      rw [if_pos (by simp [hocc])]
    · intro hempty hgo
      have hset : pySet g r c g.current_player
          = { g with board := setBoard g.board r2 c2 g.current_player } := by
        unfold pySet
        rw [show g.board.length = g.rows from hwf.1, h1]
        have hrlen : (g.board.getD r2 []).length = g.cols :=
          hwf.2 _ (getD_mem_of_lt g.board [] (hwf.1 ▸ pyIdx_lt h1))
        simp only [hrlen, h2]
        rfl
      unfold Gomoku.place_current
      rw [hsome]
      simp only []
      rw [if_neg (by simp [hempty, hgo])]
      rw [hset]
      cases hcw : (({ g with board := setBoard g.board r2 c2 g.current_player
          } : Gomoku).check_win_at r c).2 with
      | true =>
        rw [if_pos rfl]
        exact congrArg Core.board (check_win_at_core _ r c)
      | false =>
        rw [if_neg Bool.false_ne_true]
        split
        · exact congrArg Core.board (check_win_at_core _ r c)
        · exact congrArg Core.board (check_win_at_core _ r c)

theorem place_current_amended_witness :
    tinyState.place_current 5 0 = tinyState ∧ pyIdx tinyState.rows 5 = none :=
  ⟨(place_current_amended tinyState 5 0 (by decide)).2.1 (Or.inl (by decide)),
    by decide⟩

theorem getD_set_ne {α : Type} (l : List α) (n x : Nat) (a d : α)
    (h : n ≠ x) : (l.set n a).getD x d = l.getD x d := by
  simp [List.getD_eq_getElem?_getD, List.getElem?_set_ne h]

theorem cellN_setBoard_ne (b : List (List Nat)) (rn cn v x y : Nat)
    (h : ¬(x = rn ∧ y = cn)) :
    cellN (setBoard b rn cn v) x y = cellN b x y := by
  unfold cellN setBoard
  by_cases hx : x = rn
  · subst hx
    have hy : cn ≠ y := fun hy => h ⟨rfl, hy.symm⟩
    by_cases hlen : x < b.length
    · rw [getD_set_self _ _ _ _ hlen, getD_set_ne _ _ _ _ _ hy]
    · push_neg at hlen
      rw [List.set_eq_of_length_le hlen]
  · rw [getD_set_ne _ _ _ _ _ (fun hh => hx hh.symm)]

theorem cellN_setBoard_self (b : List (List Nat)) (rn cn v : Nat)
    (hr : rn < b.length) (hc : cn < (b.getD rn []).length) :
    cellN (setBoard b rn cn v) rn cn = v := by
  unfold cellN setBoard
  rw [getD_set_self _ _ _ _ hr, getD_set_self _ _ _ _ hc]

theorem cell_setCell_ne (co : Core) (rn cn v : Nat) (x y : Int)
    (hx : 0 ≤ x) (hy : 0 ≤ y) (hne : ¬(x = (rn : Int) ∧ y = (cn : Int))) :
    (co.setCell rn cn v).cell x y = co.cell x y := by
  unfold Core.cell Core.setCell
  apply cellN_setBoard_ne
  intro ⟨h1, h2⟩
  exact hne ⟨by omega, by omega⟩

theorem inB_setCell (co : Core) (rn cn v : Nat) (x y : Int) :
    inB (co.setCell rn cn v) x y = inB co x y := rfl

theorem dirs_nonzero : ∀ d ∈ dirs, ¬(d.1 = 0 ∧ d.2 = 0) := by decide

theorem cell_setCell_self {co : Core} (hwf : WFc co) {rn cn : Nat} (v : Nat)
    (hr : rn < co.rows) (hc : cn < co.cols) :
    (co.setCell rn cn v).cell (rn : Int) (cn : Int) = v := by
  unfold Core.cell Core.setCell
  simp only [Int.toNat_natCast]
  apply cellN_setBoard_self
  · rw [hwf.1]; exact hr
  · rw [hwf.2 _ (getD_mem_of_lt co.board [] (hwf.1 ▸ hr))]; exact hc

theorem inB_elim {co : Core} {x y : Int} (h : inB co x y = true) :
    0 ≤ x ∧ x < (co.rows : Int) ∧ 0 ≤ y ∧ y < (co.cols : Int) := by
  simp only [inB, Bool.and_eq_true, decide_eq_true_eq] at h
  exact ⟨h.1.1.1, h.1.1.2, h.1.2, h.2⟩

theorem lineWalk_setCell_avoid (co : Core) (rn cn v color : Nat) (dr dc : Int) :
    ∀ (fuel : Nat) (rr cc : Int),
      (∀ k : Nat, ¬(rr + k * dr = (rn : Int) ∧ cc + k * dc = (cn : Int))) →
      lineWalk (co.setCell rn cn v) color dr dc fuel rr cc
        = lineWalk co color dr dc fuel rr cc := by
  intro fuel
  induction fuel with
  | zero => intro rr cc h; rfl
  | succ f ih =>
    intro rr cc h
    rw [lineWalk, lineWalk]
    have h0 := h 0
    simp only [Nat.cast_zero, zero_mul, add_zero] at h0
    by_cases hb : inB co rr cc = true
    · have hx := inB_elim hb
      have hcell : (co.setCell rn cn v).cell rr cc = co.cell rr cc :=
        cell_setCell_ne co rn cn v rr cc hx.1 hx.2.2.1 h0
      rw [show inB (co.setCell rn cn v) rr cc = inB co rr cc from rfl, hcell]
      by_cases hg : (inB co rr cc && (co.cell rr cc == color)) = true
      · rw [if_pos hg, if_pos hg]
        congr 1
        apply ih
        intro k hk
        apply h (k + 1)
        have e1 : rr + ((k + 1 : Nat) : Int) * dr = rr + dr + (k : Int) * dr := by
          push_cast; ring
        have e2 : cc + ((k + 1 : Nat) : Int) * dc = cc + dc + (k : Int) * dc := by
          push_cast; ring
        exact ⟨by rw [e1]; exact hk.1, by rw [e2]; exact hk.2⟩
      · rw [if_neg hg, if_neg hg]
    · have hbf : inB co rr cc = false := by
        revert hb; cases inB co rr cc <;> simp
      rw [show inB (co.setCell rn cn v) rr cc = inB co rr cc from rfl, hbf]
      simp only [Bool.false_and]
      rw [if_neg Bool.false_ne_true, if_neg Bool.false_ne_true]

theorem check_win_b_iff_exists {co : Core} {r c : Int} {color : Nat}
    (hpg : pyGet co r c = some color) (h0 : color ≠ 0) :
    check_win_b co r c = true ↔
      ∃ d ∈ dirs, 5 ≤ (collect_line_positions co r c d.1 d.2).length := by
  unfold check_win_b
  constructor
  · intro h
    rw [Option.isSome_iff_exists] at h
    obtain ⟨line, hline⟩ := h
    have hline2 : (dirs.findSome? fun d =>
        let l2 := collect_line_positions co r c d.1 d.2
        if 5 ≤ l2.length then some l2 else none) = some line := by
      have h3 := hline
      simp only [winLineAt, hpg] at h3
      rw [if_neg (by simp [h0])] at h3
      exact h3
    obtain ⟨d, hd, hfd⟩ := findSome_eq_some_mem hline2
    simp only [] at hfd
    by_cases hlen : 5 ≤ (collect_line_positions co r c d.1 d.2).length
    · exact ⟨d, hd, hlen⟩
    · rw [if_neg hlen] at hfd
      exact Option.noConfusion hfd
  · intro ⟨d, hd, hlen⟩
    simp only [winLineAt, hpg]
    rw [if_neg (by simp [h0])]
    apply findSome_isSome_of_mem hd
    simp [hlen]

theorem win_any_iff_five {co : Core} (hwf : WFc co) (player : Nat)
    (hp : player ≠ 0) {r c : Nat} (hr : r < co.rows) (hc : c < co.cols)
    (hempty : cellN co.board r c = 0) :
    ((dirs.map (dir_count_open co player (r : Int) (c : Int))).any
        fun p => decide (5 ≤ p.1)) = true
      ↔ five_through (co.setCell r c player) (r : Int) (c : Int) = true := by
  have hwf2 : WFc (co.setCell r c player) := WFc_setCell co r c player hwf
  have hcellself : cellN (co.setCell r c player).board r c = player := by
    show cellN (setBoard co.board r c player) r c = player
    exact cellN_setBoard_self co.board r c player (hwf.1 ▸ hr)
      ((hwf.2 _ (getD_mem_of_lt co.board [] (hwf.1 ▸ hr))) ▸ hc)
  have hpg2 : pyGet (co.setCell r c player) (r : Int) (c : Int) = some player := by
    rw [pyGet_in_range hwf2 hr hc]
    exact congrArg some hcellself
  have havoid : ∀ (d : Int × Int), d ∈ dirs → ∀ s : Int × Int,
      (s = (d.1, d.2) ∨ s = (-d.1, -d.2)) →
      lineWalk (co.setCell r c player) player s.1 s.2 (fuelOf co)
          ((r : Int) + s.1) ((c : Int) + s.2)
        = lineWalk co player s.1 s.2 (fuelOf co)
          ((r : Int) + s.1) ((c : Int) + s.2) := by
    intro d hd s hs
    have hdnz := dirs_nonzero d hd
    have hsnz : ¬(s.1 = 0 ∧ s.2 = 0) := by
      rcases hs with h1 | h1 <;> rw [h1] <;> simp only [] <;>
        intro ⟨e1, e2⟩ <;> exact hdnz ⟨by omega, by omega⟩
    apply lineWalk_setCell_avoid
    intro k hk
    have e1 : (r : Int) + s.1 + (k : Int) * s.1 = (r : Int) + ((k : Int) + 1) * s.1 := by
      ring
    have e2 : (c : Int) + s.2 + (k : Int) * s.2 = (c : Int) + ((k : Int) + 1) * s.2 := by
      ring
    rw [e1] at hk
    rw [e2] at hk
    have hk1 : ((k : Int) + 1) * s.1 = 0 := by omega
    have hk2 : ((k : Int) + 1) * s.2 = 0 := by omega
    have hknz : ((k : Int) + 1) ≠ 0 := by omega
    exact hsnz ⟨by
      rcases mul_eq_zero.mp hk1 with h2 | h2
      · exact absurd h2 hknz
      · exact h2, by
      rcases mul_eq_zero.mp hk2 with h2 | h2
      · exact absurd h2 hknz
      · exact h2⟩
  have hfuel : fuelOf (co.setCell r c player) = fuelOf co := rfl
  constructor
  · intro h
    rw [List.any_eq_true] at h
    obtain ⟨x, hx, hcnt⟩ := h
    rw [List.mem_map] at hx
    obtain ⟨d, hd, hxd⟩ := hx
    rw [← hxd] at hcnt
    rw [decide_eq_true_eq] at hcnt
    rw [← check_win_iff_five hwf2 hr hc]
    rw [check_win_b_iff_exists hpg2 hp]
    refine ⟨d, hd, ?_⟩
    rw [collect_line_length hpg2 hp d.1 d.2, hfuel]
    have hb := havoid d hd (-d.1, -d.2) (Or.inr rfl)
    have hf := havoid d hd (d.1, d.2) (Or.inl rfl)
    simp only [] at hb hf
    have eb : (r : Int) + -d.1 = (r : Int) - d.1 := by ring
    have eb2 : (c : Int) + -d.2 = (c : Int) - d.2 := by ring
    rw [eb, eb2] at hb
    rw [hb, hf]
    have hcnt2 : (dir_count_open co player (r : Int) (c : Int) d).1 =
        1 + (lineWalk co player (-d.1) (-d.2) (fuelOf co)
          ((r : Int) - d.1) ((c : Int) - d.2)).length +
        (lineWalk co player d.1 d.2 (fuelOf co)
          ((r : Int) + d.1) ((c : Int) + d.2)).length := by
      simp only [dir_count_open, contiguous]
      congr 2
    rw [hcnt2] at hcnt
    omega
  · intro h
    rw [← check_win_iff_five hwf2 hr hc,
      check_win_b_iff_exists hpg2 hp] at h
    obtain ⟨d, hd, hlen⟩ := h
    rw [List.any_eq_true]
    refine ⟨dir_count_open co player (r : Int) (c : Int) d,
      List.mem_map_of_mem _ hd, ?_⟩
    rw [decide_eq_true_eq]
    rw [collect_line_length hpg2 hp d.1 d.2, hfuel] at hlen
    have hb := havoid d hd (-d.1, -d.2) (Or.inr rfl)
    have hf := havoid d hd (d.1, d.2) (Or.inl rfl)
    simp only [] at hb hf
    have eb : (r : Int) + -d.1 = (r : Int) - d.1 := by ring
    have eb2 : (c : Int) + -d.2 = (c : Int) - d.2 := by ring
    rw [eb, eb2] at hb
    rw [hb, hf] at hlen
    have hcnt2 : (dir_count_open co player (r : Int) (c : Int) d).1 =
        1 + (lineWalk co player (-d.1) (-d.2) (fuelOf co)
          ((r : Int) - d.1) ((c : Int) - d.2)).length +
        (lineWalk co player d.1 d.2 (fuelOf co)
          ((r : Int) + d.1) ((c : Int) + d.2)).length := by
      simp only [dir_count_open, contiguous]
      congr 2
    rw [hcnt2]
    omega

theorem tier_value_le (count oe : Nat) : tier_value count oe ≤ 2 * 10 ^ 6 := by
  unfold tier_value
  split_ifs <;> norm_num

theorem tier_value_ge (count oe : Nat) : 6 ≤ tier_value count oe := by
  unfold tier_value
  split_ifs <;> norm_num

theorem center_bias_nonpos (co : Core) (r c : Int) : center_bias co r c ≤ 0 := by
  unfold center_bias
  have h := Nat.cast_nonneg (α := ℚ)
    ((r - ((co.rows / 2 : Nat) : Int)).natAbs + (c - ((co.cols / 2 : Nat) : Int)).natAbs)
  nlinarith

theorem tier_sum_bounds (co : Core) (player : Nat) (r c : Int) :
    24 ≤ ((dirs.map (dir_count_open co player r c)).map
        fun p => tier_value p.1 p.2).sum ∧
      ((dirs.map (dir_count_open co player r c)).map
        fun p => tier_value p.1 p.2).sum ≤ 8 * 10 ^ 6 := by
  simp only [dirs, List.map_cons, List.map_nil, List.sum_cons, List.sum_nil]
  constructor
  · have h1 := tier_value_ge (dir_count_open co player r c (1, 0)).1
      (dir_count_open co player r c (1, 0)).2
    have h2 := tier_value_ge (dir_count_open co player r c (0, 1)).1
      (dir_count_open co player r c (0, 1)).2
    have h3 := tier_value_ge (dir_count_open co player r c (1, 1)).1
      (dir_count_open co player r c (1, 1)).2
    have h4 := tier_value_ge (dir_count_open co player r c (1, -1)).1
      (dir_count_open co player r c (1, -1)).2
    linarith
  · have h1 := tier_value_le (dir_count_open co player r c (1, 0)).1
      (dir_count_open co player r c (1, 0)).2
    have h2 := tier_value_le (dir_count_open co player r c (0, 1)).1
      (dir_count_open co player r c (0, 1)).2
    have h3 := tier_value_le (dir_count_open co player r c (1, 1)).1
      (dir_count_open co player r c (1, 1)).2
    have h4 := tier_value_le (dir_count_open co player r c (1, -1)).1
      (dir_count_open co player r c (1, -1)).2
    linarith

theorem score_if_place_occupied {co : Core} (hwf : WFc co) {r c : Nat}
    (hr : r < co.rows) (hc : c < co.cols) (hocc : cellN co.board r c ≠ 0)
    (player : Nat) :
    score_if_place co player (r : Int) (c : Int) = -(10 ^ 18) := by
  have hpg := pyGet_in_range hwf hr hc
  simp only [score_if_place, hpg]
  rw [if_pos hocc]

theorem score_if_place_empty {co : Core} (hwf : WFc co) {r c : Nat}
    (hr : r < co.rows) (hc : c < co.cols) (hempty : cellN co.board r c = 0)
    (player : Nat) :
    score_if_place co player (r : Int) (c : Int) =
      (if ((dirs.map (dir_count_open co player (r : Int) (c : Int))).any
          fun p => decide (5 ≤ p.1))
        then (10 ^ 9 : ℚ)
        else ((dirs.map (dir_count_open co player (r : Int) (c : Int))).map
          fun p => tier_value p.1 p.2).sum + center_bias co (r : Int) (c : Int)) := by
  have hpg : pyGet co (r : Int) (c : Int) = some 0 := by
    rw [pyGet_in_range hwf hr hc]
    exact congrArg some hempty
  simp only [score_if_place, hpg]
  rw [if_neg (by simp)]

/-- C5: on a well-formed board, for every nonzero player and every cell
(r, c): `_score_if_place` returns the large negative sentinel -1e18 when
the cell is occupied; on an empty cell it returns the very large win
constant 1e9 - bypassing the tier table and the centrality term - exactly
when placing the stone would create a 5-in-a-row through (r, c) (some
direction reaches count = 1 + both-sided runs >= 5); otherwise it returns
the per-direction tier sum plus the centrality penalty -0.5 x Manhattan
distance from the board center. -/
theorem score_if_place_spec (co : Core) (player : Nat) (r c : Nat)
    (hwf : WFc co) (hp : player ≠ 0) (hr : r < co.rows) (hc : c < co.cols) :
    (cellN co.board r c ≠ 0 →
      score_if_place co player (r : Int) (c : Int) = -(10 ^ 18)) ∧
    (cellN co.board r c = 0 →
      (score_if_place co player (r : Int) (c : Int) = 10 ^ 9 ↔
        five_through (co.setCell r c player) (r : Int) (c : Int) = true) ∧
      (five_through (co.setCell r c player) (r : Int) (c : Int) = false →
        score_if_place co player (r : Int) (c : Int) =
          ((dirs.map (dir_count_open co player (r : Int) (c : Int))).map
            fun p => tier_value p.1 p.2).sum +
            center_bias co (r : Int) (c : Int))) := by
  refine ⟨fun hocc => score_if_place_occupied hwf hr hc hocc player,
    fun hempty => ?_⟩
  have hiff := win_any_iff_five hwf player hp hr hc hempty
  rw [score_if_place_empty hwf hr hc hempty player]
  by_cases hany : ((dirs.map (dir_count_open co player (r : Int) (c : Int))).any
      fun p => decide (5 ≤ p.1)) = true
  · rw [if_pos hany]
    refine ⟨⟨fun _ => hiff.mp hany, fun _ => rfl⟩, fun hfive => ?_⟩
    rw [hiff.mp hany] at hfive
    exact Bool.noConfusion hfive
  · rw [if_neg hany]
    have hub := (tier_sum_bounds co player (r : Int) (c : Int)).2
    have hbias := center_bias_nonpos co (r : Int) (c : Int)
    refine ⟨⟨fun heq => absurd heq (by intro heq2; nlinarith), fun hfive => ?_⟩,
      fun _ => rfl⟩
    exact absurd (hiff.mpr hfive) hany

theorem score_if_place_spec_witness :
    score_if_place fiveState.core 2 ((0 : Nat) : Int) ((0 : Nat) : Int)
      = -(10 ^ 18) :=
  (score_if_place_spec fiveState.core 2 0 0 (by decide) (by decide) (by decide)
    (by decide)).1 (by decide)

theorem allCells_nodup (co : Core) : (allCells co).Nodup := by
  unfold allCells
  refine List.nodup_flatMap.mpr ⟨?_, ?_⟩
  · intro x hx
    exact (List.nodup_range _).map (fun a b hab => by
      injection hab with h1 h2)
  · refine (List.pairwise_lt_range _).imp ?_
    intro a b hab
    intro p hp hq
    rw [List.mem_map] at hp hq
    obtain ⟨ca, hca, hpa⟩ := hp
    obtain ⟨cb, hcb, hpb⟩ := hq
    rw [← hpb] at hpa
    injection hpa with h1 h2
    omega

theorem near_stone_iff (co : Core) (p : Nat × Nat) :
    near_stone co p = true ↔
      ∃ q : Nat × Nat, q.1 < co.rows ∧ q.2 < co.cols ∧
        cellN co.board q.1 q.2 ≠ 0 ∧
        ((p.1 : Int) - (q.1 : Int)).natAbs ≤ 2 ∧
        ((p.2 : Int) - (q.2 : Int)).natAbs ≤ 2 := by
  unfold near_stone
  rw [List.any_eq_true]
  constructor
  · intro ⟨q, hq, hcond⟩
    unfold stones_list at hq
    rw [List.mem_filter] at hq
    have hm := (mem_allCells co q).mp hq.1
    simp only [Bool.and_eq_true, decide_eq_true_eq] at hcond
    refine ⟨q, hm.1, hm.2, ?_, hcond.1, hcond.2⟩
    have h2 := hq.2
    simp only [Bool.not_eq_true', beq_eq_false_iff_ne] at h2
    exact h2
  · intro ⟨q, h1, h2, h3, h4, h5⟩
    refine ⟨q, ?_, ?_⟩
    · unfold stones_list
      rw [List.mem_filter]
      exact ⟨(mem_allCells co q).mpr ⟨h1, h2⟩, by simpa using h3⟩
    · simp only [Bool.and_eq_true, decide_eq_true_eq]
      exact ⟨h4, h5⟩

theorem cand_cells_nodup (co : Core) : (cand_cells co).Nodup :=
  (allCells_nodup co).filter _

/-- C4: for every well-formed board, candidate generation returns exactly
the single center cell when the board is empty; otherwise every returned
cell is an in-range empty cell within Chebyshev distance 2 of some
occupied cell, the list is deduplicated, sorted descending by the blend
score `1.2 x scoreIfPlaced(ai) + 1.0 x scoreIfPlaced(opponent)`, and
truncated to the branch limit 8 (the whole candidate set, in some order,
when at most 8 candidates exist; otherwise the kept 8 dominate: every
returned cell's blend score is at least that of every candidate cell
left out); an occupied cell is never returned. -/
theorem ai_generate_candidates_spec (co : Core) (hwf : WFc co) :
    (stones_list co = [] →
      ai_generate_candidates co = [(co.rows / 2, co.cols / 2)]) ∧
    (∀ p ∈ ai_generate_candidates co, cellN co.board p.1 p.2 = 0) ∧
    (stones_list co ≠ [] →
      (∀ p ∈ ai_generate_candidates co,
        p.1 < co.rows ∧ p.2 < co.cols ∧
        ∃ q : Nat × Nat, q.1 < co.rows ∧ q.2 < co.cols ∧
          cellN co.board q.1 q.2 ≠ 0 ∧
          ((p.1 : Int) - (q.1 : Int)).natAbs ≤ 2 ∧
          ((p.2 : Int) - (q.2 : Int)).natAbs ≤ 2) ∧
      (ai_generate_candidates co).length
        = min (max 1 8) (cand_cells co).length ∧
      (ai_generate_candidates co).Nodup ∧
      List.Sorted qGE ((ai_generate_candidates co).map (blend_score co)) ∧
      ((cand_cells co).length ≤ 8 →
        (ai_generate_candidates co).Perm (cand_cells co)) ∧
      (∀ p ∈ ai_generate_candidates co, ∀ q ∈ cand_cells co,
        q ∉ ai_generate_candidates co →
        blend_score co q ≤ blend_score co p)) := by
  refine ⟨fun hs => by unfold ai_generate_candidates; rw [if_pos hs],
    cand_empty hwf, fun hs => ?_⟩
  have hgen : ai_generate_candidates co =
      ((List.insertionSort scoreRel
        ((cand_cells co).map fun p => (p, blend_score co p))).take
          (max 1 8)).map Prod.fst := by
    unfold ai_generate_candidates
    rw [if_neg hs]
  have hperm : (List.insertionSort scoreRel
      ((cand_cells co).map fun p => (p, blend_score co p))).Perm
      ((cand_cells co).map fun p => (p, blend_score co p)) :=
    List.perm_insertionSort scoreRel _
  have hmem_cand : ∀ p ∈ ai_generate_candidates co, p ∈ cand_cells co := by
    intro p hp
    rw [hgen, List.mem_map] at hp
    obtain ⟨q, hq, hql⟩ := hp
    have hq2 := hperm.mem_iff.mp (List.mem_of_mem_take hq)
    rw [List.mem_map] at hq2
    obtain ⟨p2, hp2, hp2e⟩ := hq2
    rw [← hql, ← hp2e]
    exact hp2
  have hform : ∀ q ∈ List.insertionSort scoreRel
      ((cand_cells co).map fun p => (p, blend_score co p)),
      q.2 = blend_score co q.1 := by
    intro q hq
    have hq2 := hperm.mem_iff.mp hq
    rw [List.mem_map] at hq2
    obtain ⟨p2, hp2, hp2e⟩ := hq2
    rw [← hp2e]
  have hfst : (List.insertionSort scoreRel
      ((cand_cells co).map fun p => (p, blend_score co p))).map Prod.fst
      |>.Perm (cand_cells co) := by
    have h1 := hperm.map Prod.fst
    rw [List.map_map] at h1
    have h2 : (Prod.fst ∘ fun p => (p, blend_score co p)) = id := by
      funext x
      rfl
    rw [h2, List.map_id] at h1
    exact h1
  refine ⟨?_, ?_, ?_, ?_, ?_, ?_⟩
  · intro p hp
    have hc := mem_cand_cells (hmem_cand p hp)
    have hm := (mem_allCells co p).mp hc.1
    exact ⟨hm.1, hm.2, (near_stone_iff co p).mp hc.2.2⟩
  · rw [hgen, List.length_map, List.length_take, hperm.length_eq,
      List.length_map]
  · rw [hgen, List.map_take]
    apply List.Nodup.sublist (List.take_sublist _ _)
    exact hfst.nodup_iff.mpr (cand_cells_nodup co)
  · have hsorted : List.Sorted scoreRel (List.insertionSort scoreRel
        ((cand_cells co).map fun p => (p, blend_score co p))) :=
      List.sorted_insertionSort scoreRel _
    have htake : List.Sorted scoreRel ((List.insertionSort scoreRel
        ((cand_cells co).map fun p => (p, blend_score co p))).take (max 1 8)) :=
      hsorted.sublist (List.take_sublist _ _)
    rw [hgen]
    rw [List.Sorted, List.pairwise_map, List.pairwise_map]
    refine htake.imp_of_mem ?_
    intro a b ha hb hab
    have hfa := hform a (List.mem_of_mem_take ha)
    have hfb := hform b (List.mem_of_mem_take hb)
    unfold qGE
    unfold scoreRel at hab
    rw [← hfa, ← hfb]
    exact hab
  · intro hle
    have hlen : (List.insertionSort scoreRel
        ((cand_cells co).map fun p => (p, blend_score co p))).length ≤ max 1 8 := by
      rw [hperm.length_eq, List.length_map]
      omega
    rw [hgen, List.take_of_length_le hlen]
    exact hfst
  · intro p hp q hq hqn
    rw [hgen, List.mem_map] at hp
    obtain ⟨pa, hpa, hpae⟩ := hp
    have hpform : pa.2 = blend_score co pa.1 :=
      hform pa (List.mem_of_mem_take hpa)
    have hqs : (q, blend_score co q) ∈ List.insertionSort scoreRel
        ((cand_cells co).map fun p => (p, blend_score co p)) :=
      hperm.mem_iff.mpr (List.mem_map_of_mem _ hq)
    have hqsplit : (q, blend_score co q) ∈ (List.insertionSort scoreRel
          ((cand_cells co).map fun p => (p, blend_score co p))).take (max 1 8) ∨
        (q, blend_score co q) ∈ (List.insertionSort scoreRel
          ((cand_cells co).map fun p => (p, blend_score co p))).drop
            (max 1 8) := by
      rw [← List.mem_append, List.take_append_drop]
      exact hqs
    rcases hqsplit with hqt | hqd
    · exfalso
      apply hqn
      rw [hgen]
      exact List.mem_map_of_mem Prod.fst hqt
    · have hrel : scoreRel pa (q, blend_score co q) :=
        (List.sorted_insertionSort scoreRel _).rel_of_mem_take_of_mem_drop
          hpa hqd
      unfold scoreRel at hrel
      rw [hpform] at hrel
      rw [← hpae]
      exact hrel

theorem ai_generate_candidates_spec_witness :
    (ai_generate_candidates leakState.core).length
        = min (max 1 8) (cand_cells leakState.core).length ∧
      ai_generate_candidates tinyState.core
        = [(tinyState.core.rows / 2, tinyState.core.cols / 2)] ∧
      8 < (cand_cells wideState).length ∧
      (∀ p ∈ ai_generate_candidates wideState, ∀ q ∈ cand_cells wideState,
        q ∉ ai_generate_candidates wideState →
        blend_score wideState q ≤ blend_score wideState p) :=
  ⟨((ai_generate_candidates_spec leakState.core (by decide)).2.2
      (by decide)).2.1,
    (ai_generate_candidates_spec tinyState.core (by decide)).1 (by decide),
    by decide,
    ((ai_generate_candidates_spec wideState (by decide)).2.2
      (by decide)).2.2.2.2.2⟩

/-- C6: for every board and player, the static evaluation equals
`aiSum * 1.0 - 1.05 x opSum`, where each sum is the sum of the top 6
values - the first 6 entries of any descending sorting - of the placement
scores of the generated candidates for that side; it returns 0 when the
candidate list is empty. -/
theorem evaluate_board_spec (co : Core) (player : Nat) :
    (ai_generate_candidates co = [] → evaluate_board co player = 0) ∧
    (∀ l1 l2 : List ℚ,
      l1.Perm ((ai_generate_candidates co).map fun p =>
        score_if_place co player (p.1 : Int) (p.2 : Int)) →
      List.Sorted qGE l1 →
      l2.Perm ((ai_generate_candidates co).map fun p =>
        score_if_place co (flip_to_move player) (p.1 : Int) (p.2 : Int)) →
      List.Sorted qGE l2 →
      evaluate_board co player
        = (l1.take 6).sum * 1 - (l2.take 6).sum * (21 / 20)) := by
  constructor
  · intro hc
    unfold evaluate_board
    rw [if_pos hc]
  · intro l1 l2 hp1 hs1 hp2 hs2
    by_cases hc : ai_generate_candidates co = []
    · have he1 : l1 = [] := by
        rw [hc] at hp1
        simp only [List.map_nil] at hp1
        exact hp1.eq_nil
      have he2 : l2 = [] := by
        rw [hc] at hp2
        simp only [List.map_nil] at hp2
        exact hp2.eq_nil
      unfold evaluate_board
      rw [if_pos hc, he1, he2]
      norm_num
    · have h1 : l1 = List.insertionSort qGE
          ((ai_generate_candidates co).map fun p =>
            score_if_place co player (p.1 : Int) (p.2 : Int)) :=
        List.eq_of_perm_of_sorted
          (hp1.trans (List.perm_insertionSort qGE _).symm) hs1
          (List.sorted_insertionSort qGE _)
      have h2 : l2 = List.insertionSort qGE
          ((ai_generate_candidates co).map fun p =>
            score_if_place co (flip_to_move player) (p.1 : Int) (p.2 : Int)) :=
        List.eq_of_perm_of_sorted
          (hp2.trans (List.perm_insertionSort qGE _).symm) hs2
          (List.sorted_insertionSort qGE _)
      unfold evaluate_board
      rw [if_neg hc, h1, h2]

unseal Rat.add Rat.mul Rat.sub Rat.inv in
theorem evaluate_board_spec_witness :
    evaluate_board tinyState.core 1
      = (([(24 : ℚ)].take 6).sum * 1 - ([(24 : ℚ)].take 6).sum * (21 / 20)) :=
  (evaluate_board_spec tinyState.core 1).2 [24] [24] (by decide) (by decide)
    (by decide) (by decide)

theorem pyIdx_natCast_lt {n q : Nat} (h : q < n) : pyIdx n (q : Int) = some q := by
  unfold pyIdx
  rw [if_pos (by positivity), if_pos (by exact_mod_cast h)]
  simp

theorem pyIdx_natCast_ge {n q : Nat} (h : n ≤ q) : pyIdx n (q : Int) = none := by
  unfold pyIdx
  rw [if_pos (by positivity), if_neg (by exact_mod_cast Nat.not_lt.mpr h)]

theorem pyGet_oob {co : Core} (hwf : WFc co) {r c : Nat}
    (h : ¬(r < co.rows ∧ c < co.cols)) :
    pyGet co (r : Int) (c : Int) = none := by
  by_cases hr : r < co.rows
  · have hc : co.cols ≤ c := by omega
    have hrlen : (co.board.getD r []).length = co.cols :=
      hwf.2 _ (getD_mem_of_lt co.board [] (hwf.1 ▸ hr))
    simp only [pyGet, hwf.1, pyIdx_natCast_lt hr, hrlen, pyIdx_natCast_ge hc]
  · have hr2 : co.rows ≤ r := by omega
    simp only [pyGet, hwf.1, pyIdx_natCast_ge hr2]

theorem center_bias_ge {co : Core} (h15r : co.rows ≤ 15) (h15c : co.cols ≤ 15)
    {r c : Nat} (hr : r < co.rows) (hc : c < co.cols) :
    -(14 : ℚ) ≤ center_bias co (r : Int) (c : Int) := by
  unfold center_bias
  have h3 : (((((r : Int) - ((co.rows / 2 : Nat) : Int)).natAbs +
      ((c : Int) - ((co.cols / 2 : Nat) : Int)).natAbs) : Nat) : ℚ) ≤ 28 := by
    have h4 : (((r : Int) - ((co.rows / 2 : Nat) : Int)).natAbs +
        ((c : Int) - ((co.cols / 2 : Nat) : Int)).natAbs) ≤ 28 := by omega
    exact_mod_cast Nat.cast_le.mpr h4
  nlinarith

theorem score_cand_bounds {co : Core} (hwf : WFc co) (h15r : co.rows ≤ 15)
    (h15c : co.cols ≤ 15) (player : Nat) :
    ∀ p ∈ ai_generate_candidates co,
      0 ≤ score_if_place co player (p.1 : Int) (p.2 : Int) ∧
      score_if_place co player (p.1 : Int) (p.2 : Int) ≤ 10 ^ 9 := by
  intro p hp
  have hempty := cand_empty hwf p hp
  by_cases hin : p.1 < co.rows ∧ p.2 < co.cols
  · rw [score_if_place_empty hwf hin.1 hin.2 hempty player]
    by_cases hany : ((dirs.map (dir_count_open co player (p.1 : Int) (p.2 : Int))).any
        fun q => decide (5 ≤ q.1)) = true
    · rw [if_pos hany]
      norm_num
    · rw [if_neg hany]
      have hts := tier_sum_bounds co player (p.1 : Int) (p.2 : Int)
      have hb1 := center_bias_nonpos co (p.1 : Int) (p.2 : Int)
      have hb2 := center_bias_ge h15r h15c hin.1 hin.2
      constructor <;> nlinarith [hts.1, hts.2]
  · unfold score_if_place
    rw [pyGet_oob hwf hin]
    norm_num

theorem take_sum_bounds {B : ℚ} (hB : 0 ≤ B) (k : Nat) (l : List ℚ)
    (hl : ∀ x ∈ l, 0 ≤ x ∧ x ≤ B) :
    0 ≤ (l.take k).sum ∧ (l.take k).sum ≤ (k : ℚ) * B := by
  constructor
  · apply List.sum_nonneg
    intro x hx
    exact (hl x (List.mem_of_mem_take hx)).1
  · calc (l.take k).sum ≤ (l.take k).length • B :=
        List.sum_le_card_nsmul _ _ (fun x hx => (hl x (List.mem_of_mem_take hx)).2)
    _ = (((l.take k).length : Nat) : ℚ) * B := by rw [nsmul_eq_mul]
    _ ≤ (k : ℚ) * B := by
        apply mul_le_mul_of_nonneg_right _ hB
        have hlen : (l.take k).length ≤ k := by
          rw [List.length_take]; omega
        exact_mod_cast hlen

theorem evaluate_board_bounds {co : Core} (hwf : WFc co) (h15r : co.rows ≤ 15)
    (h15c : co.cols ≤ 15) (player : Nat) :
    -(10 ^ 10 : ℚ) ≤ evaluate_board co player ∧
      evaluate_board co player ≤ 10 ^ 10 := by
  unfold evaluate_board
  by_cases hc : ai_generate_candidates co = []
  · rw [if_pos hc]
    norm_num
  · rw [if_neg hc]
    have hmem : ∀ (q : Nat) (x : ℚ), x ∈ List.insertionSort qGE
        ((ai_generate_candidates co).map fun p =>
          score_if_place co q (p.1 : Int) (p.2 : Int)) → 0 ≤ x ∧ x ≤ 10 ^ 9 := by
      intro q x hx
      have hx2 := (List.perm_insertionSort qGE _).mem_iff.mp hx
      rw [List.mem_map] at hx2
      obtain ⟨p, hp, hpe⟩ := hx2
      rw [← hpe]
      exact score_cand_bounds hwf h15r h15c q p hp
    have hb1 := take_sum_bounds (B := 10 ^ 9) (by norm_num) 6
      (List.insertionSort qGE ((ai_generate_candidates co).map fun p =>
        score_if_place co player (p.1 : Int) (p.2 : Int))) (hmem player)
    have hb2 := take_sum_bounds (B := 10 ^ 9) (by norm_num) 6
      (List.insertionSort qGE ((ai_generate_candidates co).map fun p =>
        score_if_place co (flip_to_move player) (p.1 : Int) (p.2 : Int)))
      (hmem (flip_to_move player))
    push_cast at hb1 hb2
    constructor <;> nlinarith [hb1.1, hb1.2, hb2.1, hb2.2]

/-- C7: the immediate-win score `1e12 - (3 - depth) * 1e6` at a maximizing
node is strictly increasing in the remaining depth (faster wins score
strictly higher), the immediate-loss score at a minimizing node is
strictly decreasing in it, and on boards of the scoped dimensions both
are extreme relative to every non-winning evaluation value (every
`_evaluate_board` output, and the 0 returned at candidate-less nodes). -/
theorem win_score_depth_bias :
    (∀ d1 d2 : Nat, d2 < d1 →
      win_score_max d2 < win_score_max d1 ∧
        win_score_min d1 < win_score_min d2) ∧
    (∀ (co : Core) (player : Nat) (d : Nat), WFc co → co.rows ≤ 15 →
      co.cols ≤ 15 → 1 ≤ d →
      evaluate_board co player < win_score_max d ∧
        win_score_min d < evaluate_board co player ∧
        win_score_min d < 0 ∧ (0 : ℚ) < win_score_max d) := by
  constructor
  · intro d1 d2 h
    unfold win_score_max win_score_min
    have hq : (d2 : ℚ) < (d1 : ℚ) := by exact_mod_cast h
    constructor <;> nlinarith
  · intro co player d hwf h15r h15c hd
    have hb := evaluate_board_bounds hwf h15r h15c player
    have hdq : (1 : ℚ) ≤ (d : ℚ) := by exact_mod_cast hd
    unfold win_score_max win_score_min
    refine ⟨by nlinarith [hb.2], by nlinarith [hb.1], by nlinarith, by nlinarith⟩

unseal Rat.add Rat.mul Rat.sub Rat.inv in
theorem win_score_depth_bias_witness :
    (win_score_max 1 < win_score_max 2 ∧ win_score_min 2 < win_score_min 1) ∧
      (evaluate_board tinyState.core 1 < win_score_max 2 ∧
        win_score_min 2 < evaluate_board tinyState.core 1 ∧
        win_score_min 2 < 0 ∧ (0 : ℚ) < win_score_max 2) :=
  ⟨win_score_depth_bias.1 2 1 (by decide),
    win_score_depth_bias.2 tinyState.core 1 2 (by decide) (by decide)
      (by decide) (by decide)⟩

theorem foldl_max_le {M b : ℚ} {l : List ℚ} (hb : b ≤ M)
    (hl : ∀ x ∈ l, x ≤ M) : l.foldl max b ≤ M := by
  induction l generalizing b with
  | nil => exact hb
  | cons x xs ih =>
    exact ih (max_le hb (hl x (List.mem_cons_self _ _)))
      (fun y hy => hl y (List.mem_cons_of_mem _ hy))

theorem init_le_foldl_max (b : ℚ) (l : List ℚ) : b ≤ l.foldl max b := by
  induction l generalizing b with
  | nil => exact le_refl b
  | cons x xs ih => exact le_trans (le_max_left b x) (ih (max b x))

theorem le_foldl_max {x : ℚ} {l : List ℚ} (hx : x ∈ l) (b : ℚ) :
    x ≤ l.foldl max b := by
  induction l generalizing b with
  | nil => simp at hx
  | cons y ys ih =>
    rcases List.mem_cons.mp hx with h | h
    · subst h
      exact le_trans (le_max_right b x) (init_le_foldl_max _ _)
    · exact ih h (max b y)

theorem foldl_min_ge {M b : ℚ} {l : List ℚ} (hb : M ≤ b)
    (hl : ∀ x ∈ l, M ≤ x) : M ≤ l.foldl min b := by
  induction l generalizing b with
  | nil => exact hb
  | cons x xs ih =>
    exact ih (le_min hb (hl x (List.mem_cons_self _ _)))
      (fun y hy => hl y (List.mem_cons_of_mem _ hy))

theorem foldl_min_le_init (b : ℚ) (l : List ℚ) : l.foldl min b ≤ b := by
  induction l generalizing b with
  | nil => exact le_refl b
  | cons x xs ih => exact le_trans (ih (min b x)) (min_le_left b x)

theorem foldl_min_le {x : ℚ} {l : List ℚ} (hx : x ∈ l) (b : ℚ) :
    l.foldl min b ≤ x := by
  induction l generalizing b with
  | nil => simp at hx
  | cons y ys ih =>
    rcases List.mem_cons.mp hx with h | h
    · subst h
      exact le_trans (foldl_min_le_init (min b x) ys) (min_le_right b x)
    · exact ih h (min b y)

theorem win_score_max_bounds {d : Nat} (hd : d ≤ 3) :
    (0 : ℚ) ≤ win_score_max d ∧ win_score_max d ≤ 10 ^ 12 := by
  unfold win_score_max
  have h1 : (d : ℚ) ≤ 3 := by exact_mod_cast hd
  have h2 : (0 : ℚ) ≤ (d : ℚ) := by positivity
  constructor <;> nlinarith

theorem win_score_min_bounds {d : Nat} (hd : d ≤ 3) :
    -(10 ^ 12 : ℚ) ≤ win_score_min d ∧ win_score_min d ≤ 0 := by
  unfold win_score_min
  have h1 : (d : ℚ) ≤ 3 := by exact_mod_cast hd
  have h2 : (0 : ℚ) ≤ (d : ℚ) := by positivity
  constructor <;> nlinarith

theorem WFc_core_setCell {co : Core} (hwf : WFc co) (r c v : Nat) :
    WFc (co.setCell r c v) := WFc_setCell co r c v hwf

theorem child_val_max0_bounds {co : Core} (hwf : WFc co) (h15r : co.rows ≤ 15)
    (h15c : co.cols ≤ 15) (tm : Nat) (p : Nat × Nat) :
    -(10 ^ 12 : ℚ) ≤ child_val_max 0 co tm p ∧
      child_val_max 0 co tm p ≤ 10 ^ 12 := by
  simp only [child_val_max]
  split
  · exact ⟨by nlinarith [(win_score_max_bounds (by omega : 1 ≤ 3)).1],
      (win_score_max_bounds (by omega : 1 ≤ 3)).2⟩
  · have hb := evaluate_board_bounds (WFc_core_setCell hwf p.1 p.2 tm)
      (by exact h15r) (by exact h15c) ((co.setCell p.1 p.2 tm).ai)
    unfold minimax
    constructor <;> nlinarith [hb.1, hb.2]

theorem child_val_min0_bounds {co : Core} (hwf : WFc co) (h15r : co.rows ≤ 15)
    (h15c : co.cols ≤ 15) (tm : Nat) (p : Nat × Nat) :
    -(10 ^ 12 : ℚ) ≤ child_val_min 0 co tm p ∧
      child_val_min 0 co tm p ≤ 10 ^ 12 := by
  simp only [child_val_min]
  split
  · exact ⟨(win_score_min_bounds (by omega : 1 ≤ 3)).1,
      by nlinarith [(win_score_min_bounds (by omega : 1 ≤ 3)).2]⟩
  · have hb := evaluate_board_bounds (WFc_core_setCell hwf p.1 p.2 tm)
      (by exact h15r) (by exact h15c) ((co.setCell p.1 p.2 tm).ai)
    unfold minimax
    constructor <;> nlinarith [hb.1, hb.2]

theorem minimax1_bounds {co : Core} (hwf : WFc co) (h15r : co.rows ≤ 15)
    (h15c : co.cols ≤ 15) (tm : Nat) :
    -(10 ^ 12 : ℚ) ≤ minimax 1 co tm ∧ minimax 1 co tm ≤ 10 ^ 12 := by
  rw [show (1 : Nat) = 0 + 1 from rfl]
  unfold minimax
  by_cases hc : ai_generate_candidates co = []
  · rw [if_pos hc]
    norm_num
  · rw [if_neg hc]
    obtain ⟨p0, hp0⟩ := List.exists_mem_of_ne_nil _ hc
    by_cases htm : (tm == co.ai) = true
    · rw [if_pos htm]
      constructor
      · exact le_trans (child_val_max0_bounds hwf h15r h15c tm p0).1
          (le_foldl_max (List.mem_map_of_mem _ hp0) _)
      · apply foldl_max_le (by norm_num)
        intro x hx
        rw [List.mem_map] at hx
        obtain ⟨q, hq, hqe⟩ := hx
        rw [← hqe]
        exact (child_val_max0_bounds hwf h15r h15c tm q).2
    · rw [if_neg htm]
      constructor
      · apply foldl_min_ge (by norm_num)
        intro x hx
        rw [List.mem_map] at hx
        obtain ⟨q, hq, hqe⟩ := hx
        rw [← hqe]
        exact (child_val_min0_bounds hwf h15r h15c tm q).1
      · exact le_trans (foldl_min_le (List.mem_map_of_mem _ hp0) _)
          (child_val_min0_bounds hwf h15r h15c tm p0).2

theorem child_val_max1_bounds {co : Core} (hwf : WFc co) (h15r : co.rows ≤ 15)
    (h15c : co.cols ≤ 15) (tm : Nat) (p : Nat × Nat) :
    -(10 ^ 12 : ℚ) ≤ child_val_max 1 co tm p ∧
      child_val_max 1 co tm p ≤ 10 ^ 12 := by
  simp only [child_val_max]
  split
  · exact ⟨by nlinarith [(win_score_max_bounds (by omega : 2 ≤ 3)).1],
      (win_score_max_bounds (by omega : 2 ≤ 3)).2⟩
  · exact minimax1_bounds (WFc_core_setCell hwf p.1 p.2 tm) h15r h15c _

theorem child_val_min1_bounds {co : Core} (hwf : WFc co) (h15r : co.rows ≤ 15)
    (h15c : co.cols ≤ 15) (tm : Nat) (p : Nat × Nat) :
    -(10 ^ 12 : ℚ) ≤ child_val_min 1 co tm p ∧
      child_val_min 1 co tm p ≤ 10 ^ 12 := by
  simp only [child_val_min]
  split
  · exact ⟨(win_score_min_bounds (by omega : 2 ≤ 3)).1,
      by nlinarith [(win_score_min_bounds (by omega : 2 ≤ 3)).2]⟩
  · exact minimax1_bounds (WFc_core_setCell hwf p.1 p.2 tm) h15r h15c _


theorem core_restore (co : Core) (r c v : Nat) (h : cellN co.board r c = 0) :
    (co.setCell r c v).setCell r c 0 = co := by
  simp only [Core.setCell]
  rw [setBoard_restore co.board r c v h]

theorem if_lt_eq_min (s best : ℚ) : (if s < best then s else best) = min best s := by
  rcases le_or_lt best s with h | h
  · rw [if_neg (by linarith), min_eq_left h]
  · rw [if_pos h, min_eq_right (le_of_lt h)]

theorem if_lt_eq_max (best s : ℚ) : (if best < s then s else best) = max best s := by
  rcases le_or_lt s best with h | h
  · rw [if_neg (by linarith), max_eq_left h]
  · rw [if_pos h, max_eq_right (le_of_lt h)]

theorem ab_min_step
    (recur : Gomoku → Nat → ℚ → ℚ → Gomoku × ℚ × Option (Nat × Nat))
    (dep tm : Nat) (g : Gomoku) (r c : Nat) (rest : List (Nat × Nat))
    (best : ℚ) (bm : Option (Nat × Nat)) (alpha beta : ℚ) (s : ℚ) (S : Gomoku)
    (hs : s = (if ((g.setCell r c tm).check_win_at (r : Int) (c : Int)).2
      then win_score_min dep
      else (recur ((g.setCell r c tm).check_win_at (r : Int) (c : Int)).1
        (flip_to_move tm) alpha beta).2.1))
    (hS : S = (if ((g.setCell r c tm).check_win_at (r : Int) (c : Int)).2
      then ((g.setCell r c tm).check_win_at (r : Int) (c : Int)).1
      else (recur ((g.setCell r c tm).check_win_at (r : Int) (c : Int)).1
        (flip_to_move tm) alpha beta).1).setCell r c 0) :
    ab_min_loop recur dep tm g ((r, c) :: rest) best bm alpha beta =
      if min beta (if s < best then s else best) ≤ alpha
      then (S, if s < best then s else best, if s < best then some (r, c) else bm)
      else ab_min_loop recur dep tm S rest (if s < best then s else best)
        (if s < best then some (r, c) else bm) alpha
        (min beta (if s < best then s else best)) := by
  by_cases hcw : ((g.setCell r c tm).check_win_at (r : Int) (c : Int)).2 = true
  · rw [if_pos hcw] at hs hS
    subst hs
    subst hS
    simp only [ab_min_loop]
    rw [if_pos hcw]
  · rw [if_neg hcw] at hs hS
    subst hs
    subst hS
    simp only [ab_min_loop]
    rw [if_neg hcw]

theorem ab_max_step
    (recur : Gomoku → Nat → ℚ → ℚ → Gomoku × ℚ × Option (Nat × Nat))
    (dep tm : Nat) (g : Gomoku) (r c : Nat) (rest : List (Nat × Nat))
    (best : ℚ) (bm : Option (Nat × Nat)) (alpha beta : ℚ) (s : ℚ) (S : Gomoku)
    (hs : s = (if ((g.setCell r c tm).check_win_at (r : Int) (c : Int)).2
      then win_score_max dep
      else (recur ((g.setCell r c tm).check_win_at (r : Int) (c : Int)).1
        (flip_to_move tm) alpha beta).2.1))
    (hS : S = (if ((g.setCell r c tm).check_win_at (r : Int) (c : Int)).2
      then ((g.setCell r c tm).check_win_at (r : Int) (c : Int)).1
      else (recur ((g.setCell r c tm).check_win_at (r : Int) (c : Int)).1
        (flip_to_move tm) alpha beta).1).setCell r c 0) :
    ab_max_loop recur dep tm g ((r, c) :: rest) best bm alpha beta =
      if beta ≤ max alpha (if best < s then s else best)
      then (S, if best < s then s else best, if best < s then some (r, c) else bm)
      else ab_max_loop recur dep tm S rest (if best < s then s else best)
        (if best < s then some (r, c) else bm)
        (max alpha (if best < s then s else best)) beta := by
  by_cases hcw : ((g.setCell r c tm).check_win_at (r : Int) (c : Int)).2 = true
  · rw [if_pos hcw] at hs hS
    subst hs
    subst hS
    simp only [ab_max_loop]
    rw [if_pos hcw]
  · rw [if_neg hcw] at hs hS
    subst hs
    subst hS
    simp only [ab_max_loop]
    rw [if_neg hcw]

theorem exact_min_loop
    (recur : Gomoku → Nat → ℚ → ℚ → Gomoku × ℚ × Option (Nat × Nat))
    (dep tm : Nat) (co : Core) (f : (Nat × Nat) → ℚ)
    (hwin : ∀ p : Nat × Nat,
      check_win_b (co.setCell p.1 p.2 tm) (p.1 : Int) (p.2 : Int) = true →
      f p = win_score_min dep)
    (hrec : ∀ (g2 : Gomoku) (p : Nat × Nat),
      g2.core = co.setCell p.1 p.2 tm →
      check_win_b (co.setCell p.1 p.2 tm) (p.1 : Int) (p.2 : Int) = false →
      ∀ a b : ℚ, (recur g2 (flip_to_move tm) a b).2.1 = f p ∧
        (recur g2 (flip_to_move tm) a b).1.core = g2.core)
    (hbounds : ∀ p : Nat × Nat, -(10 ^ 12 : ℚ) ≤ f p ∧ f p ≤ 10 ^ 12) :
    ∀ (l : List (Nat × Nat)) (g : Gomoku) (best : ℚ) (bm : Option (Nat × Nat))
      (alpha beta : ℚ),
      g.core = co →
      (∀ p ∈ l, cellN co.board p.1 p.2 = 0) →
      (best = 10 ^ 18 ∨ (-(10 ^ 12 : ℚ) ≤ best ∧ best ≤ 10 ^ 12)) →
      ∀ res V : ℚ,
        res = (ab_min_loop recur dep tm g l best bm alpha beta).2.1 →
        V = (l.map f).foldl min best →
        (V ≤ res ∧ res ≤ best ∧
          (alpha < res → res = V ∨ beta ≤ res) ∧
          (alpha < res → res = best → alpha < beta → V = best) ∧
          ((res = best ∧ l = []) ∨
            (-(10 ^ 12 : ℚ) ≤ res ∧ res ≤ 10 ^ 12)) ∧
          (alpha < -(10 ^ 12 : ℚ) - 1 → -(10 ^ 12 : ℚ) - 1 < beta →
            res = V)) := by
  intro l
  induction l with
  | nil =>
    intro g best bm alpha beta hcore hl hbest res V hres hV
    replace hres : res = best := hres
    replace hV : V = best := hV
    subst hres
    subst hV
    exact ⟨le_refl _, le_refl _, fun _ => Or.inl rfl, fun _ _ _ => rfl,
      Or.inl ⟨rfl, rfl⟩, fun _ _ => rfl⟩
  | cons x rest ih =>
    obtain ⟨r, c⟩ := x
    intro g best bm alpha beta hcore hl hbest res V hres hV
    have hx0 : cellN co.board r c = 0 := hl (r, c) (List.mem_cons_self _ _)
    have hcwsnd : ((g.setCell r c tm).check_win_at (r : Int) (c : Int)).2
        = check_win_b (co.setCell r c tm) (r : Int) (c : Int) := by
      rw [check_win_at_snd, setCell_core, hcore]
    have hcwcore : (((g.setCell r c tm).check_win_at (r : Int) (c : Int)).1).core
        = co.setCell r c tm := by
      rw [check_win_at_core, setCell_core, hcore]
    obtain ⟨s, hsdef⟩ :
        ∃ s : ℚ, s = (if ((g.setCell r c tm).check_win_at (r : Int) (c : Int)).2
          then win_score_min dep
          else (recur ((g.setCell r c tm).check_win_at (r : Int) (c : Int)).1
            (flip_to_move tm) alpha beta).2.1) := ⟨_, rfl⟩
    obtain ⟨S, hSdef⟩ :
        ∃ S : Gomoku,
          S = (if ((g.setCell r c tm).check_win_at (r : Int) (c : Int)).2
            then ((g.setCell r c tm).check_win_at (r : Int) (c : Int)).1
            else (recur ((g.setCell r c tm).check_win_at (r : Int) (c : Int)).1
              (flip_to_move tm) alpha beta).1).setCell r c 0 := ⟨_, rfl⟩
    rw [ab_min_step recur dep tm g r c rest best bm alpha beta s S hsdef hSdef]
      at hres
    have hsf : s = f (r, c) := by
      rw [hsdef, hcwsnd]
      by_cases hcwv : check_win_b (co.setCell r c tm) (r : Int) (c : Int) = true
      · rw [if_pos hcwv]
        exact (hwin (r, c) hcwv).symm
      · rw [if_neg hcwv]
        exact (hrec _ (r, c) hcwcore (Bool.eq_false_iff.mpr hcwv) alpha beta).1
    have hSco : S.core = co := by
      rw [hSdef, setCell_core]
      have hX : ((if ((g.setCell r c tm).check_win_at (r : Int) (c : Int)).2
          then ((g.setCell r c tm).check_win_at (r : Int) (c : Int)).1
          else (recur ((g.setCell r c tm).check_win_at (r : Int) (c : Int)).1
            (flip_to_move tm) alpha beta).1)).core = co.setCell r c tm := by
        by_cases hcwv : ((g.setCell r c tm).check_win_at (r : Int) (c : Int)).2
            = true
        · rw [if_pos hcwv]
          exact hcwcore
        · rw [if_neg hcwv]
          rw [hcwsnd] at hcwv
          exact ((hrec _ (r, c) hcwcore (Bool.eq_false_iff.mpr hcwv)
            alpha beta).2).trans hcwcore
      rw [hX]
      exact core_restore co r c tm hx0
    have hfb := hbounds (r, c)
    have hbb : -(10 ^ 12 : ℚ) ≤ (if s < best then s else best) ∧
        (if s < best then s else best) ≤ 10 ^ 12 := by
      rw [if_lt_eq_min]
      rcases hbest with hE | ⟨hlo, hhi⟩
      · rw [hE]
        refine ⟨le_min (by norm_num) (by rw [hsf]; exact hfb.1), ?_⟩
        calc min ((10 : ℚ) ^ 18) s ≤ s := min_le_right _ _
          _ ≤ 10 ^ 12 := by rw [hsf]; exact hfb.2
      · exact ⟨le_min hlo (by rw [hsf]; exact hfb.1),
          le_trans (min_le_left _ _) hhi⟩
    have hble : (if s < best then s else best) ≤ best := by
      rw [if_lt_eq_min]
      exact min_le_left _ _
    have hVc : V = (rest.map f).foldl min (if s < best then s else best) := by
      rw [hV, List.map_cons, List.foldl_cons, ← hsf, ← if_lt_eq_min]
    by_cases hcut : min beta (if s < best then s else best) ≤ alpha
    · rw [if_pos hcut] at hres
      replace hres : res = (if s < best then s else best) := hres
      refine ⟨?_, ?_, ?_, ?_, ?_, ?_⟩
      · rw [hVc, hres]
        exact foldl_min_le_init _ _
      · rw [hres]
        exact hble
      · intro halt
        right
        rw [hres] at halt ⊢
        rcases min_le_iff.mp hcut with hb | hb
        · linarith
        · linarith
      · intro h1 h2 h3
        exfalso
        rw [hres] at h1 h2
        rcases min_le_iff.mp hcut with hb | hb <;> linarith
      · right
        rw [hres]
        exact hbb
      · intro h1 h2
        exfalso
        rcases min_le_iff.mp hcut with hb | hb
        · linarith
        · linarith [hbb.1]
    · rw [if_neg hcut] at hres
      obtain ⟨ih1, ih2, ih3, ih4, ih5, ih6⟩ := ih S (if s < best then s else best)
        (if s < best then some (r, c) else bm) alpha
        (min beta (if s < best then s else best)) hSco
        (fun p hp => hl p (List.mem_cons_of_mem _ hp)) (Or.inr hbb) res
        ((rest.map f).foldl min (if s < best then s else best)) hres rfl
      push_neg at hcut
      refine ⟨?_, ?_, ?_, ?_, ?_, ?_⟩
      · rw [hVc]
        exact ih1
      · exact le_trans ih2 hble
      · intro halt
        rcases ih3 halt with hEq | hGe
        · left
          rw [hVc]
          exact hEq
        · rcases le_or_lt beta (if s < best then s else best) with hc | hc
          · rw [min_eq_left hc] at hGe
            exact Or.inr hGe
          · rw [min_eq_right hc.le] at hGe
            have hres2 : res = (if s < best then s else best) :=
              le_antisymm ih2 hGe
            left
            have hV2 := ih4 halt hres2 hcut
            rw [hVc, hV2, hres2]
      · intro h1 h2 h3
        have hbbest : best ≤ (if s < best then s else best) := h2 ▸ ih2
        have hbe : (if s < best then s else best) = best :=
          le_antisymm hble hbbest
        have hV2 := ih4 h1 (h2.trans hbe.symm) hcut
        rw [hVc, hV2, hbe]
      · right
        rcases ih5 with ⟨hr, _⟩ | hb
        · rw [hr]
          exact hbb
        · exact hb
      · intro h1 h2
        have hb2 : -(10 ^ 12 : ℚ) - 1 < min beta (if s < best then s else best) :=
          lt_min h2 (by linarith [hbb.1])
        rw [hVc]
        exact ih6 h1 hb2

theorem exact_max_loop
    (recur : Gomoku → Nat → ℚ → ℚ → Gomoku × ℚ × Option (Nat × Nat))
    (dep tm : Nat) (co : Core) (f : (Nat × Nat) → ℚ)
    (hwin : ∀ p : Nat × Nat,
      check_win_b (co.setCell p.1 p.2 tm) (p.1 : Int) (p.2 : Int) = true →
      f p = win_score_max dep)
    (hrec : ∀ (g2 : Gomoku) (p : Nat × Nat),
      g2.core = co.setCell p.1 p.2 tm →
      check_win_b (co.setCell p.1 p.2 tm) (p.1 : Int) (p.2 : Int) = false →
      ∀ a b : ℚ, (recur g2 (flip_to_move tm) a b).2.1 = f p ∧
        (recur g2 (flip_to_move tm) a b).1.core = g2.core)
    (hbounds : ∀ p : Nat × Nat, -(10 ^ 12 : ℚ) ≤ f p ∧ f p ≤ 10 ^ 12) :
    ∀ (l : List (Nat × Nat)) (g : Gomoku) (best : ℚ) (bm : Option (Nat × Nat))
      (alpha beta : ℚ),
      g.core = co →
      (∀ p ∈ l, cellN co.board p.1 p.2 = 0) →
      (best = -(10 ^ 18) ∨ (-(10 ^ 12 : ℚ) ≤ best ∧ best ≤ 10 ^ 12)) →
      ∀ res V : ℚ,
        res = (ab_max_loop recur dep tm g l best bm alpha beta).2.1 →
        V = (l.map f).foldl max best →
        (res ≤ V ∧ best ≤ res ∧
          (res < beta → res = V ∨ res ≤ alpha) ∧
          (res < beta → res = best → alpha < beta → V = best) ∧
          ((res = best ∧ l = []) ∨
            (-(10 ^ 12 : ℚ) ≤ res ∧ res ≤ 10 ^ 12)) ∧
          (alpha < (10 ^ 12 : ℚ) + 1 → (10 ^ 12 : ℚ) + 1 < beta →
            res = V)) := by
  intro l
  induction l with
  | nil =>
    intro g best bm alpha beta hcore hl hbest res V hres hV
    replace hres : res = best := hres
    replace hV : V = best := hV
    subst hres
    subst hV
    exact ⟨le_refl _, le_refl _, fun _ => Or.inl rfl, fun _ _ _ => rfl,
      Or.inl ⟨rfl, rfl⟩, fun _ _ => rfl⟩
  | cons x rest ih =>
    obtain ⟨r, c⟩ := x
    intro g best bm alpha beta hcore hl hbest res V hres hV
    have hx0 : cellN co.board r c = 0 := hl (r, c) (List.mem_cons_self _ _)
    have hcwsnd : ((g.setCell r c tm).check_win_at (r : Int) (c : Int)).2
        = check_win_b (co.setCell r c tm) (r : Int) (c : Int) := by
      rw [check_win_at_snd, setCell_core, hcore]
    have hcwcore : (((g.setCell r c tm).check_win_at (r : Int) (c : Int)).1).core
        = co.setCell r c tm := by
      rw [check_win_at_core, setCell_core, hcore]
    obtain ⟨s, hsdef⟩ :
        ∃ s : ℚ, s = (if ((g.setCell r c tm).check_win_at (r : Int) (c : Int)).2
          then win_score_max dep
          else (recur ((g.setCell r c tm).check_win_at (r : Int) (c : Int)).1
            (flip_to_move tm) alpha beta).2.1) := ⟨_, rfl⟩
    obtain ⟨S, hSdef⟩ :
        ∃ S : Gomoku,
          S = (if ((g.setCell r c tm).check_win_at (r : Int) (c : Int)).2
            then ((g.setCell r c tm).check_win_at (r : Int) (c : Int)).1
            else (recur ((g.setCell r c tm).check_win_at (r : Int) (c : Int)).1
              (flip_to_move tm) alpha beta).1).setCell r c 0 := ⟨_, rfl⟩
    rw [ab_max_step recur dep tm g r c rest best bm alpha beta s S hsdef hSdef]
      at hres
    have hsf : s = f (r, c) := by
      rw [hsdef, hcwsnd]
      by_cases hcwv : check_win_b (co.setCell r c tm) (r : Int) (c : Int) = true
      · rw [if_pos hcwv]
        exact (hwin (r, c) hcwv).symm
      · rw [if_neg hcwv]
        exact (hrec _ (r, c) hcwcore (Bool.eq_false_iff.mpr hcwv) alpha beta).1
    have hSco : S.core = co := by
      rw [hSdef, setCell_core]
      have hX : ((if ((g.setCell r c tm).check_win_at (r : Int) (c : Int)).2
          then ((g.setCell r c tm).check_win_at (r : Int) (c : Int)).1
          else (recur ((g.setCell r c tm).check_win_at (r : Int) (c : Int)).1
            (flip_to_move tm) alpha beta).1)).core = co.setCell r c tm := by
        by_cases hcwv : ((g.setCell r c tm).check_win_at (r : Int) (c : Int)).2
            = true
        · rw [if_pos hcwv]
          exact hcwcore
        · rw [if_neg hcwv]
          rw [hcwsnd] at hcwv
          exact ((hrec _ (r, c) hcwcore (Bool.eq_false_iff.mpr hcwv)
            alpha beta).2).trans hcwcore
      rw [hX]
      exact core_restore co r c tm hx0
    have hfb := hbounds (r, c)
    have hbb : -(10 ^ 12 : ℚ) ≤ (if best < s then s else best) ∧
        (if best < s then s else best) ≤ 10 ^ 12 := by
      rw [if_lt_eq_max]
      rcases hbest with hE | ⟨hlo, hhi⟩
      · rw [hE]
        refine ⟨?_, max_le (by norm_num) (by rw [hsf]; exact hfb.2)⟩
        calc (-(10 ^ 12) : ℚ) ≤ s := by rw [hsf]; exact hfb.1
          _ ≤ max (-(10 : ℚ) ^ 18) s := le_max_right _ _
      · exact ⟨le_trans hlo (le_max_left _ _),
          max_le hhi (by rw [hsf]; exact hfb.2)⟩
    have hble : best ≤ (if best < s then s else best) := by
      rw [if_lt_eq_max]
      exact le_max_left _ _
    have hVc : V = (rest.map f).foldl max (if best < s then s else best) := by
      rw [hV, List.map_cons, List.foldl_cons, ← hsf, ← if_lt_eq_max]
    by_cases hcut : beta ≤ max alpha (if best < s then s else best)
    · rw [if_pos hcut] at hres
      replace hres : res = (if best < s then s else best) := hres
      refine ⟨?_, ?_, ?_, ?_, ?_, ?_⟩
      · rw [hVc, hres]
        exact init_le_foldl_max _ _
      · rw [hres]
        exact hble
      · intro hlt
        right
        rw [hres] at hlt ⊢
        rcases le_max_iff.mp hcut with hb | hb
        · linarith
        · linarith
      · intro h1 h2 h3
        exfalso
        rw [hres] at h1 h2
        rcases le_max_iff.mp hcut with hb | hb <;> linarith
      · right
        rw [hres]
        exact hbb
      · intro h1 h2
        exfalso
        rcases le_max_iff.mp hcut with hb | hb
        · linarith
        · linarith [hbb.2]
    · rw [if_neg hcut] at hres
      obtain ⟨ih1, ih2, ih3, ih4, ih5, ih6⟩ := ih S (if best < s then s else best)
        (if best < s then some (r, c) else bm)
        (max alpha (if best < s then s else best)) beta hSco
        (fun p hp => hl p (List.mem_cons_of_mem _ hp)) (Or.inr hbb) res
        ((rest.map f).foldl max (if best < s then s else best)) hres rfl
      push_neg at hcut
      refine ⟨?_, ?_, ?_, ?_, ?_, ?_⟩
      · rw [hVc]
        exact ih1
      · exact le_trans hble ih2
      · intro hlt
        rcases ih3 hlt with hEq | hLe
        · left
          rw [hVc]
          exact hEq
        · rcases le_or_lt (if best < s then s else best) alpha with hc | hc
          · rw [max_eq_left hc] at hLe
            exact Or.inr hLe
          · rw [max_eq_right hc.le] at hLe
            have hres2 : res = (if best < s then s else best) :=
              le_antisymm hLe ih2
            left
            have hV2 := ih4 hlt hres2 hcut
            rw [hVc, hV2, hres2]
      · intro h1 h2 h3
        have hbbest : (if best < s then s else best) ≤ best := h2 ▸ ih2
        have hbe : (if best < s then s else best) = best :=
          le_antisymm hbbest hble
        have hV2 := ih4 h1 (h2.trans hbe.symm) hcut
        rw [hVc, hV2, hbe]
      · right
        rcases ih5 with ⟨hr, _⟩ | hb
        · rw [hr]
          exact hbb
        · exact hb
      · intro h1 h2
        have ha2 : max alpha (if best < s then s else best) < (10 ^ 12 : ℚ) + 1 :=
          max_lt h1 (by linarith [hbb.2])
        rw [hVc]
        exact ih6 ha2 h2

theorem flip_ne (tm : Nat) : flip_to_move tm ≠ tm := by
  unfold flip_to_move
  rcases eq_or_ne tm 2 with h | h
  · subst h
    simp
  · have hb : (tm == 2) = false := beq_eq_false_iff_ne.mpr h
    simp only [hb, Bool.false_eq_true, if_false]
    omega

theorem child_val_min0_exact (co2 : Core) (tm2 : Nat) (g3 : Gomoku)
    (p : Nat × Nat) (hg3 : g3.core = co2.setCell p.1 p.2 tm2)
    (hnw : check_win_b (co2.setCell p.1 p.2 tm2) (p.1 : Int) (p.2 : Int) = false)
    (a3 b3 : ℚ) :
    (alpha_beta 0 g3 (flip_to_move tm2) a3 b3).2.1 = child_val_min 0 co2 tm2 p ∧
      (alpha_beta 0 g3 (flip_to_move tm2) a3 b3).1.core = g3.core := by
  constructor
  · show evaluate_board g3.core g3.ai_player = child_val_min 0 co2 tm2 p
    simp only [child_val_min]
    rw [if_neg (by rw [hnw]; exact Bool.false_ne_true)]
    rw [show minimax 0 (co2.setCell p.1 p.2 tm2) (flip_to_move tm2)
      = evaluate_board (co2.setCell p.1 p.2 tm2) (co2.setCell p.1 p.2 tm2).ai
      from by simp only [minimax]]
    rw [show g3.ai_player = g3.core.ai from rfl, hg3]
  · rfl

theorem child_val_max0_exact (co2 : Core) (tm2 : Nat) (g3 : Gomoku)
    (p : Nat × Nat) (hg3 : g3.core = co2.setCell p.1 p.2 tm2)
    (hnw : check_win_b (co2.setCell p.1 p.2 tm2) (p.1 : Int) (p.2 : Int) = false)
    (a3 b3 : ℚ) :
    (alpha_beta 0 g3 (flip_to_move tm2) a3 b3).2.1 = child_val_max 0 co2 tm2 p ∧
      (alpha_beta 0 g3 (flip_to_move tm2) a3 b3).1.core = g3.core := by
  constructor
  · show evaluate_board g3.core g3.ai_player = child_val_max 0 co2 tm2 p
    simp only [child_val_max]
    rw [if_neg (by rw [hnw]; exact Bool.false_ne_true)]
    rw [show minimax 0 (co2.setCell p.1 p.2 tm2) (flip_to_move tm2)
      = evaluate_board (co2.setCell p.1 p.2 tm2) (co2.setCell p.1 p.2 tm2).ai
      from by simp only [minimax]]
    rw [show g3.ai_player = g3.core.ai from rfl, hg3]
  · rfl

theorem ab1_min_node (co2 : Core) (hwf : WFc co2) (h15r : co2.rows ≤ 15)
    (h15c : co2.cols ≤ 15) (g2 : Gomoku) (tm2 : Nat) (hcore : g2.core = co2)
    (hai : (tm2 == g2.ai_player) = false) (a b : ℚ) :
    minimax 1 co2 tm2 ≤ (alpha_beta 1 g2 tm2 a b).2.1 ∧
      (a < (alpha_beta 1 g2 tm2 a b).2.1 →
        (alpha_beta 1 g2 tm2 a b).2.1 = minimax 1 co2 tm2 ∨
          b ≤ (alpha_beta 1 g2 tm2 a b).2.1) ∧
      (a < -(10 ^ 12 : ℚ) - 1 → -(10 ^ 12 : ℚ) - 1 < b →
        (alpha_beta 1 g2 tm2 a b).2.1 = minimax 1 co2 tm2) ∧
      -(10 ^ 12 : ℚ) ≤ (alpha_beta 1 g2 tm2 a b).2.1 ∧
      (alpha_beta 1 g2 tm2 a b).2.1 ≤ 10 ^ 12 := by
  have haig : g2.ai_player = co2.ai := congrArg Core.ai hcore
  have hai2 : (tm2 == co2.ai) = false := by rw [← haig]; exact hai
  by_cases hcand : ai_generate_candidates co2 = []
  · have hs : alpha_beta 1 g2 tm2 a b = (g2, 0, none) := by
      rw [show (1 : Nat) = 0 + 1 from rfl]
      simp only [alpha_beta]
      rw [hcore, if_pos hcand]
    have hv : minimax 1 co2 tm2 = 0 := by
      rw [show (1 : Nat) = 0 + 1 from rfl]
      unfold minimax
      rw [if_pos hcand]
    rw [hs, hv]
    refine ⟨le_refl _, fun _ => Or.inl rfl, fun _ _ => rfl, by norm_num, by norm_num⟩
  · have hloop : alpha_beta 1 g2 tm2 a b
        = ab_min_loop (fun g3 tm3 a3 b3 => alpha_beta 0 g3 tm3 a3 b3) 1 tm2 g2
          (ai_generate_candidates co2) (10 ^ 18) none a b := by
      rw [show (1 : Nat) = 0 + 1 from rfl]
      simp only [alpha_beta]
      rw [hcore, if_neg hcand, if_neg (by rw [haig, hai2]; exact Bool.false_ne_true)]
    have hv : minimax 1 co2 tm2
        = ((ai_generate_candidates co2).map (child_val_min 0 co2 tm2)).foldl min
            (10 ^ 18) := by
      rw [show (1 : Nat) = 0 + 1 from rfl]
      unfold minimax
      rw [if_neg hcand, if_neg (by rw [hai2]; exact Bool.false_ne_true)]
    obtain ⟨c1, c2, c3, c4, c5, c6⟩ := exact_min_loop
      (fun g3 tm3 a3 b3 => alpha_beta 0 g3 tm3 a3 b3) 1 tm2 co2
      (child_val_min 0 co2 tm2)
      (fun p hw => by
        simp only [child_val_min]
        rw [if_pos hw])
      (fun g3 p hg3 hnw a3 b3 => child_val_min0_exact co2 tm2 g3 p hg3 hnw a3 b3)
      (fun p => child_val_min0_bounds hwf h15r h15c tm2 p)
      (ai_generate_candidates co2) g2 (10 ^ 18) none a b hcore
      (cand_empty hwf) (Or.inl rfl)
      ((alpha_beta 1 g2 tm2 a b).2.1)
      (((ai_generate_candidates co2).map (child_val_min 0 co2 tm2)).foldl min
        (10 ^ 18))
      (by rw [hloop]) rfl
    have hbds : -(10 ^ 12 : ℚ) ≤ (alpha_beta 1 g2 tm2 a b).2.1 ∧
        (alpha_beta 1 g2 tm2 a b).2.1 ≤ 10 ^ 12 := by
      rcases c5 with ⟨_, hnil⟩ | hb2
      · exact absurd hnil hcand
      · exact hb2
    refine ⟨?_, ?_, ?_, hbds.1, hbds.2⟩
    · rw [hv]
      exact c1
    · intro ha
      rcases c3 ha with hEq | hGe
      · left
        rw [hv]
        exact hEq
      · exact Or.inr hGe
    · intro h1 h2
      rw [hv]
      exact c6 h1 h2

theorem ab1_max_node (co2 : Core) (hwf : WFc co2) (h15r : co2.rows ≤ 15)
    (h15c : co2.cols ≤ 15) (g2 : Gomoku) (tm2 : Nat) (hcore : g2.core = co2)
    (hai : (tm2 == g2.ai_player) = true) (a b : ℚ) :
    (alpha_beta 1 g2 tm2 a b).2.1 ≤ minimax 1 co2 tm2 ∧
      ((alpha_beta 1 g2 tm2 a b).2.1 < b →
        (alpha_beta 1 g2 tm2 a b).2.1 = minimax 1 co2 tm2 ∨
          (alpha_beta 1 g2 tm2 a b).2.1 ≤ a) ∧
      -(10 ^ 12 : ℚ) ≤ (alpha_beta 1 g2 tm2 a b).2.1 ∧
      (alpha_beta 1 g2 tm2 a b).2.1 ≤ 10 ^ 12 := by
  have haig : g2.ai_player = co2.ai := congrArg Core.ai hcore
  have hai2 : (tm2 == co2.ai) = true := by rw [← haig]; exact hai
  by_cases hcand : ai_generate_candidates co2 = []
  · have hs : alpha_beta 1 g2 tm2 a b = (g2, 0, none) := by
      rw [show (1 : Nat) = 0 + 1 from rfl]
      simp only [alpha_beta]
      rw [hcore, if_pos hcand]
    have hv : minimax 1 co2 tm2 = 0 := by
      rw [show (1 : Nat) = 0 + 1 from rfl]
      unfold minimax
      rw [if_pos hcand]
    rw [hs, hv]
    refine ⟨le_refl _, fun _ => Or.inl rfl, by norm_num, by norm_num⟩
  · have hloop : alpha_beta 1 g2 tm2 a b
        = ab_max_loop (fun g3 tm3 a3 b3 => alpha_beta 0 g3 tm3 a3 b3) 1 tm2 g2
          (ai_generate_candidates co2) (-(10 ^ 18)) none a b := by
      rw [show (1 : Nat) = 0 + 1 from rfl]
      simp only [alpha_beta]
      rw [hcore, if_neg hcand, if_pos (by rw [haig]; exact hai2)]
    have hv : minimax 1 co2 tm2
        = ((ai_generate_candidates co2).map (child_val_max 0 co2 tm2)).foldl max
            (-(10 ^ 18)) := by
      rw [show (1 : Nat) = 0 + 1 from rfl]
      unfold minimax
      rw [if_neg hcand, if_pos hai2]
    obtain ⟨c1, c2, c3, c4, c5, c6⟩ := exact_max_loop
      (fun g3 tm3 a3 b3 => alpha_beta 0 g3 tm3 a3 b3) 1 tm2 co2
      (child_val_max 0 co2 tm2)
      (fun p hw => by
        simp only [child_val_max]
        rw [if_pos hw])
      (fun g3 p hg3 hnw a3 b3 => child_val_max0_exact co2 tm2 g3 p hg3 hnw a3 b3)
      (fun p => child_val_max0_bounds hwf h15r h15c tm2 p)
      (ai_generate_candidates co2) g2 (-(10 ^ 18)) none a b hcore
      (cand_empty hwf) (Or.inl rfl)
      ((alpha_beta 1 g2 tm2 a b).2.1)
      (((ai_generate_candidates co2).map (child_val_max 0 co2 tm2)).foldl max
        (-(10 ^ 18)))
      (by rw [hloop]) rfl
    have hbds : -(10 ^ 12 : ℚ) ≤ (alpha_beta 1 g2 tm2 a b).2.1 ∧
        (alpha_beta 1 g2 tm2 a b).2.1 ≤ 10 ^ 12 := by
      rcases c5 with ⟨_, hnil⟩ | hb2
      · exact absurd hnil hcand
      · exact hb2
    refine ⟨?_, ?_, hbds.1, hbds.2⟩
    · rw [hv]
      exact c1
    · intro hb2
      rcases c3 hb2 with hEq | hLe
      · left
        rw [hv]
        exact hEq
      · exact Or.inr hLe

theorem root_max_loop
    (recur : Gomoku → Nat → ℚ → ℚ → Gomoku × ℚ × Option (Nat × Nat))
    (tm : Nat) (co : Core) (f : (Nat × Nat) → ℚ)
    (hwin : ∀ p : Nat × Nat,
      check_win_b (co.setCell p.1 p.2 tm) (p.1 : Int) (p.2 : Int) = true →
      f p = win_score_max 2)
    (hrec : ∀ (g2 : Gomoku) (p : Nat × Nat),
      g2.core = co.setCell p.1 p.2 tm →
      check_win_b (co.setCell p.1 p.2 tm) (p.1 : Int) (p.2 : Int) = false →
      ∀ a : ℚ,
        f p ≤ (recur g2 (flip_to_move tm) a (10 ^ 18)).2.1 ∧
        (a < (recur g2 (flip_to_move tm) a (10 ^ 18)).2.1 →
          (recur g2 (flip_to_move tm) a (10 ^ 18)).2.1 = f p) ∧
        -(10 ^ 12 : ℚ) ≤ (recur g2 (flip_to_move tm) a (10 ^ 18)).2.1 ∧
        (recur g2 (flip_to_move tm) a (10 ^ 18)).2.1 ≤ 10 ^ 12 ∧
        (recur g2 (flip_to_move tm) a (10 ^ 18)).1.core = g2.core)
    (hfb : ∀ p : Nat × Nat, -(10 ^ 12 : ℚ) ≤ f p ∧ f p ≤ 10 ^ 12) :
    ∀ (l : List (Nat × Nat)) (g : Gomoku) (best : ℚ) (bm : Option (Nat × Nat)),
      g.core = co →
      (∀ p ∈ l, cellN co.board p.1 p.2 = 0) →
      (best = -(10 ^ 18) ∨ (-(10 ^ 12 : ℚ) ≤ best ∧ best ≤ 10 ^ 12)) →
      (ab_max_loop recur 2 tm g l best bm (max (-(10 ^ 18)) best)
          (10 ^ 18)).2.1
        = (l.map f).foldl max best := by
  intro l
  induction l with
  | nil =>
    intro g best bm hcore hl hbest
    rfl
  | cons x rest ih =>
    obtain ⟨r, c⟩ := x
    intro g best bm hcore hl hbest
    have hx0 : cellN co.board r c = 0 := hl (r, c) (List.mem_cons_self _ _)
    have hcwsnd : ((g.setCell r c tm).check_win_at (r : Int) (c : Int)).2
        = check_win_b (co.setCell r c tm) (r : Int) (c : Int) := by
      rw [check_win_at_snd, setCell_core, hcore]
    have hcwcore : (((g.setCell r c tm).check_win_at (r : Int) (c : Int)).1).core
        = co.setCell r c tm := by
      rw [check_win_at_core, setCell_core, hcore]
    obtain ⟨s, hsdef⟩ :
        ∃ s : ℚ, s = (if ((g.setCell r c tm).check_win_at (r : Int) (c : Int)).2
          then win_score_max 2
          else (recur ((g.setCell r c tm).check_win_at (r : Int) (c : Int)).1
            (flip_to_move tm) (max (-(10 ^ 18)) best) (10 ^ 18)).2.1) := ⟨_, rfl⟩
    obtain ⟨S, hSdef⟩ :
        ∃ S : Gomoku,
          S = (if ((g.setCell r c tm).check_win_at (r : Int) (c : Int)).2
            then ((g.setCell r c tm).check_win_at (r : Int) (c : Int)).1
            else (recur ((g.setCell r c tm).check_win_at (r : Int) (c : Int)).1
              (flip_to_move tm) (max (-(10 ^ 18)) best) (10 ^ 18)).1).setCell
                r c 0 := ⟨_, rfl⟩
    rw [ab_max_step recur 2 tm g r c rest best bm (max (-(10 ^ 18)) best)
      (10 ^ 18) s S hsdef hSdef]
    have hsf : f (r, c) ≤ s ∧ (max (-(10 ^ 18)) best < s → s = f (r, c)) ∧
        -(10 ^ 12 : ℚ) ≤ s ∧ s ≤ 10 ^ 12 := by
      by_cases hcwv : check_win_b (co.setCell r c tm) (r : Int) (c : Int) = true
      · have hsval : s = f (r, c) := by
          rw [hsdef, hcwsnd, if_pos hcwv]
          exact (hwin (r, c) hcwv).symm
        rw [hsval]
        exact ⟨le_refl _, fun _ => rfl, (hfb (r, c)).1, (hfb (r, c)).2⟩
      · have hrc := hrec _ (r, c) hcwcore (Bool.eq_false_iff.mpr hcwv)
          (max (-(10 ^ 18)) best)
        have hsval : s = (recur ((g.setCell r c tm).check_win_at (r : Int)
            (c : Int)).1 (flip_to_move tm) (max (-(10 ^ 18)) best)
            (10 ^ 18)).2.1 := by
          rw [hsdef, hcwsnd, if_neg hcwv]
        rw [hsval]
        exact ⟨hrc.1, hrc.2.1, hrc.2.2.1, hrc.2.2.2.1⟩
    have hSco : S.core = co := by
      rw [hSdef, setCell_core]
      have hX : ((if ((g.setCell r c tm).check_win_at (r : Int) (c : Int)).2
          then ((g.setCell r c tm).check_win_at (r : Int) (c : Int)).1
          else (recur ((g.setCell r c tm).check_win_at (r : Int) (c : Int)).1
            (flip_to_move tm) (max (-(10 ^ 18)) best)
            (10 ^ 18)).1)).core = co.setCell r c tm := by
        by_cases hcwv : ((g.setCell r c tm).check_win_at (r : Int) (c : Int)).2
            = true
        · rw [if_pos hcwv]
          exact hcwcore
        · rw [if_neg hcwv]
          rw [hcwsnd] at hcwv
          exact ((hrec _ (r, c) hcwcore (Bool.eq_false_iff.mpr hcwv)
            (max (-(10 ^ 18)) best)).2.2.2.2).trans hcwcore
      rw [hX]
      exact core_restore co r c tm hx0
    have hbest2 : -(10 ^ 12 : ℚ) ≤ (if best < s then s else best) ∧
        (if best < s then s else best) ≤ 10 ^ 12 := by
      rw [if_lt_eq_max]
      refine ⟨le_trans hsf.2.2.1 (le_max_right _ _), max_le ?_ hsf.2.2.2⟩
      rcases hbest with hE | ⟨hlo, hhi⟩
      · rw [hE]
        norm_num
      · exact hhi
    have hkey : (if best < s then s else best) = max best (f (r, c)) := by
      rw [if_lt_eq_max]
      rcases le_or_lt s (max (-(10 ^ 18)) best) with hsa | hsa
      · have hbest' : max (-(10 ^ 18)) best = best := by
          rcases hbest with hE | ⟨hlo, hhi⟩
          · rw [hE, max_self]
          · exact max_eq_right (by linarith)
        rw [hbest'] at hsa
        rw [max_eq_left hsa, max_eq_left (le_trans hsf.1 hsa)]
      · rw [hsf.2.1 hsa]
    have hnocut : ¬ ((10 : ℚ) ^ 18 ≤ max (max (-(10 ^ 18)) best)
        (if best < s then s else best)) := by
      push_neg
      apply max_lt
      · apply max_lt (by norm_num)
        rcases hbest with hE | ⟨hlo, hhi⟩
        · rw [hE]
          norm_num
        · linarith
      · linarith [hbest2.2]
    rw [if_neg hnocut]
    have halpha : max (max (-(10 ^ 18)) best) (if best < s then s else best)
        = max (-(10 ^ 18)) (if best < s then s else best) := by
      rw [max_assoc]
      congr 1
      exact max_eq_right (by rw [if_lt_eq_max]; exact le_max_left _ _)
    rw [halpha]
    rw [ih S (if best < s then s else best) (if best < s then some (r, c) else bm)
      hSco (fun p hp => hl p (List.mem_cons_of_mem _ hp)) (Or.inr hbest2)]
    rw [List.map_cons, List.foldl_cons, hkey]

theorem root_min_loop
    (recur : Gomoku → Nat → ℚ → ℚ → Gomoku × ℚ × Option (Nat × Nat))
    (tm : Nat) (co : Core) (f : (Nat × Nat) → ℚ)
    (hwin : ∀ p : Nat × Nat,
      check_win_b (co.setCell p.1 p.2 tm) (p.1 : Int) (p.2 : Int) = true →
      f p = win_score_min 2)
    (hrec : ∀ (g2 : Gomoku) (p : Nat × Nat),
      g2.core = co.setCell p.1 p.2 tm →
      check_win_b (co.setCell p.1 p.2 tm) (p.1 : Int) (p.2 : Int) = false →
      ∀ b : ℚ, -(10 ^ 12 : ℚ) ≤ b →
        (recur g2 (flip_to_move tm) (-(10 ^ 18)) b).2.1 ≤ f p ∧
        ((recur g2 (flip_to_move tm) (-(10 ^ 18)) b).2.1 < b →
          (recur g2 (flip_to_move tm) (-(10 ^ 18)) b).2.1 = f p) ∧
        -(10 ^ 12 : ℚ) ≤ (recur g2 (flip_to_move tm) (-(10 ^ 18)) b).2.1 ∧
        (recur g2 (flip_to_move tm) (-(10 ^ 18)) b).2.1 ≤ 10 ^ 12 ∧
        (recur g2 (flip_to_move tm) (-(10 ^ 18)) b).1.core = g2.core)
    (hfb : ∀ p : Nat × Nat, -(10 ^ 12 : ℚ) ≤ f p ∧ f p ≤ 10 ^ 12) :
    ∀ (l : List (Nat × Nat)) (g : Gomoku) (best : ℚ) (bm : Option (Nat × Nat)),
      g.core = co →
      (∀ p ∈ l, cellN co.board p.1 p.2 = 0) →
      (best = 10 ^ 18 ∨ (-(10 ^ 12 : ℚ) ≤ best ∧ best ≤ 10 ^ 12)) →
      (ab_min_loop recur 2 tm g l best bm (-(10 ^ 18))
          (min (10 ^ 18) best)).2.1
        = (l.map f).foldl min best := by
  intro l
  induction l with
  | nil =>
    intro g best bm hcore hl hbest
    rfl
  | cons x rest ih =>
    obtain ⟨r, c⟩ := x
    intro g best bm hcore hl hbest
    have hx0 : cellN co.board r c = 0 := hl (r, c) (List.mem_cons_self _ _)
    have hcwsnd : ((g.setCell r c tm).check_win_at (r : Int) (c : Int)).2
        = check_win_b (co.setCell r c tm) (r : Int) (c : Int) := by
      rw [check_win_at_snd, setCell_core, hcore]
    have hcwcore : (((g.setCell r c tm).check_win_at (r : Int) (c : Int)).1).core
        = co.setCell r c tm := by
      rw [check_win_at_core, setCell_core, hcore]
    have hbge : -(10 ^ 12 : ℚ) ≤ min (10 ^ 18) best := by
      rcases hbest with hE | ⟨hlo, hhi⟩
      · rw [hE, min_self]
        norm_num
      · exact le_min (by norm_num) hlo
    obtain ⟨s, hsdef⟩ :
        ∃ s : ℚ, s = (if ((g.setCell r c tm).check_win_at (r : Int) (c : Int)).2
          then win_score_min 2
          else (recur ((g.setCell r c tm).check_win_at (r : Int) (c : Int)).1
            (flip_to_move tm) (-(10 ^ 18)) (min (10 ^ 18) best)).2.1) := ⟨_, rfl⟩
    obtain ⟨S, hSdef⟩ :
        ∃ S : Gomoku,
          S = (if ((g.setCell r c tm).check_win_at (r : Int) (c : Int)).2
            then ((g.setCell r c tm).check_win_at (r : Int) (c : Int)).1
            else (recur ((g.setCell r c tm).check_win_at (r : Int) (c : Int)).1
              (flip_to_move tm) (-(10 ^ 18)) (min (10 ^ 18) best)).1).setCell
                r c 0 := ⟨_, rfl⟩
    rw [ab_min_step recur 2 tm g r c rest best bm (-(10 ^ 18))
      (min (10 ^ 18) best) s S hsdef hSdef]
    have hsf : s ≤ f (r, c) ∧ (s < min (10 ^ 18) best → s = f (r, c)) ∧
        -(10 ^ 12 : ℚ) ≤ s ∧ s ≤ 10 ^ 12 := by
      by_cases hcwv : check_win_b (co.setCell r c tm) (r : Int) (c : Int) = true
      · have hsval : s = f (r, c) := by
          rw [hsdef, hcwsnd, if_pos hcwv]
          exact (hwin (r, c) hcwv).symm
        rw [hsval]
        exact ⟨le_refl _, fun _ => rfl, (hfb (r, c)).1, (hfb (r, c)).2⟩
      · have hrc := hrec _ (r, c) hcwcore (Bool.eq_false_iff.mpr hcwv)
          (min (10 ^ 18) best) hbge
        have hsval : s = (recur ((g.setCell r c tm).check_win_at (r : Int)
            (c : Int)).1 (flip_to_move tm) (-(10 ^ 18))
            (min (10 ^ 18) best)).2.1 := by
          rw [hsdef, hcwsnd, if_neg hcwv]
        rw [hsval]
        exact ⟨hrc.1, hrc.2.1, hrc.2.2.1, hrc.2.2.2.1⟩
    have hSco : S.core = co := by
      rw [hSdef, setCell_core]
      have hX : ((if ((g.setCell r c tm).check_win_at (r : Int) (c : Int)).2
          then ((g.setCell r c tm).check_win_at (r : Int) (c : Int)).1
          else (recur ((g.setCell r c tm).check_win_at (r : Int) (c : Int)).1
            (flip_to_move tm) (-(10 ^ 18))
            (min (10 ^ 18) best)).1)).core = co.setCell r c tm := by
        by_cases hcwv : ((g.setCell r c tm).check_win_at (r : Int) (c : Int)).2
            = true
        · rw [if_pos hcwv]
          exact hcwcore
        · rw [if_neg hcwv]
          rw [hcwsnd] at hcwv
          exact ((hrec _ (r, c) hcwcore (Bool.eq_false_iff.mpr hcwv)
            (min (10 ^ 18) best) hbge).2.2.2.2).trans hcwcore
      rw [hX]
      exact core_restore co r c tm hx0
    have hbest2 : -(10 ^ 12 : ℚ) ≤ (if s < best then s else best) ∧
        (if s < best then s else best) ≤ 10 ^ 12 := by
      rw [if_lt_eq_min]
      refine ⟨le_min ?_ hsf.2.2.1, le_trans (min_le_right _ _) hsf.2.2.2⟩
      rcases hbest with hE | ⟨hlo, hhi⟩
      · rw [hE]
        norm_num
      · exact hlo
    have hkey : (if s < best then s else best) = min best (f (r, c)) := by
      rw [if_lt_eq_min]
      rcases lt_or_le s (min (10 ^ 18) best) with hsb | hsb
      · rw [hsf.2.1 hsb]
      · have hbest' : min ((10 : ℚ) ^ 18) best = best := by
          rcases hbest with hE | ⟨hlo, hhi⟩
          · rw [hE, min_self]
          · exact min_eq_right (by linarith)
        rw [hbest'] at hsb
        rw [min_eq_left hsb, min_eq_left (le_trans hsb hsf.1)]
    have hnocut : ¬ (min (min ((10 : ℚ) ^ 18) best)
        (if s < best then s else best) ≤ -(10 ^ 18)) := by
      push_neg
      apply lt_min
      · linarith [hbge]
      · linarith [hbest2.1]
    rw [if_neg hnocut]
    have hbeta : min (min ((10 : ℚ) ^ 18) best) (if s < best then s else best)
        = min (10 ^ 18) (if s < best then s else best) := by
      rw [min_assoc]
      congr 1
      exact min_eq_right (by rw [if_lt_eq_min]; exact min_le_left _ _)
    rw [hbeta]
    rw [ih S (if s < best then s else best) (if s < best then some (r, c) else bm)
      hSco (fun p hp => hl p (List.mem_cons_of_mem _ hp)) (Or.inr hbest2)]
    rw [List.map_cons, List.foldl_cons, hkey]

/-- C8: for every well-formed position on a board of the scope of the
game (at most 15x15, which subsumes the reduced boards of the claim) and
either side to move, the root score returned by `_alpha_beta` at depth 2
with the initial full window (modelled by `(-1e18, 1e18)`, wider than any
attainable score, as the code's own `-inf`/`+inf` sentinels) equals the
score of exhaustive minimax over the same candidate tree, the same leaf
evaluation and the same depth-biased immediate-win scoring. -/
theorem alpha_beta_eq_minimax_depth2 (g : Gomoku) (tm : Nat) (hwf : g.WF)
    (h15r : g.rows ≤ 15) (h15c : g.cols ≤ 15) :
    (alpha_beta 2 g tm (-(10 ^ 18)) (10 ^ 18)).2.1 = minimax 2 g.core tm := by
  have hwfc : WFc g.core := hwf
  have h15r2 : g.core.rows ≤ 15 := h15r
  have h15c2 : g.core.cols ≤ 15 := h15c
  rw [show (2 : Nat) = 1 + 1 from rfl]
  by_cases hcand : ai_generate_candidates g.core = []
  · have hL : alpha_beta (1 + 1) g tm (-(10 ^ 18)) (10 ^ 18) = (g, 0, none) := by
      simp only [alpha_beta]
      rw [if_pos hcand]
    have hR : minimax (1 + 1) g.core tm = 0 := by
      unfold minimax
      rw [if_pos hcand]
    rw [hL, hR]
  · by_cases htm : (tm == g.ai_player) = true
    · have htm2 : (tm == g.core.ai) = true := htm
      have hL : alpha_beta (1 + 1) g tm (-(10 ^ 18)) (10 ^ 18)
          = ab_max_loop (fun g2 tm2 a2 b2 => alpha_beta 1 g2 tm2 a2 b2) 2 tm g
            (ai_generate_candidates g.core) (-(10 ^ 18)) none (-(10 ^ 18))
            (10 ^ 18) := by
        simp only [alpha_beta]
        rw [if_neg hcand, if_pos htm]
      have hR : minimax (1 + 1) g.core tm
          = ((ai_generate_candidates g.core).map
              (child_val_max 1 g.core tm)).foldl max (-(10 ^ 18)) := by
        unfold minimax
        rw [if_neg hcand, if_pos htm2]
      have hroot := root_max_loop
        (fun g2 tm2 a2 b2 => alpha_beta 1 g2 tm2 a2 b2) tm g.core
        (child_val_max 1 g.core tm)
        (fun p hw => by
          simp only [child_val_max]
          rw [if_pos hw])
        (fun g2 p hg2 hnw a => by
          have hgai : g2.ai_player = tm := by
            have h1 : g2.ai_player = (g.core.setCell p.1 p.2 tm).ai :=
              congrArg Core.ai hg2
            rw [h1]
            exact (beq_iff_eq.mp htm2).symm
          have haiflip : (flip_to_move tm == g2.ai_player) = false := by
            apply beq_eq_false_iff_ne.mpr
            rw [hgai]
            exact flip_ne tm
          have node := ab1_min_node (g.core.setCell p.1 p.2 tm)
            (WFc_core_setCell hwfc p.1 p.2 tm) (by exact h15r2) (by exact h15c2)
            g2 (flip_to_move tm) hg2 haiflip a (10 ^ 18)
          have hveq : child_val_max 1 g.core tm p
              = minimax 1 (g.core.setCell p.1 p.2 tm) (flip_to_move tm) := by
            simp only [child_val_max]
            rw [if_neg (by rw [hnw]; exact Bool.false_ne_true)]
          refine ⟨by rw [hveq]; exact node.1, ?_, node.2.2.2.1, node.2.2.2.2, ?_⟩
          · intro ha
            rcases node.2.1 ha with h | h
            · rw [hveq]
              exact h
            · exfalso
              linarith [node.2.2.2.2]
          · exact alpha_beta_core 1 g2 (flip_to_move tm) a (10 ^ 18)
              (by rw [hg2]; exact WFc_core_setCell hwfc p.1 p.2 tm))
        (fun p => child_val_max1_bounds hwfc h15r2 h15c2 tm p)
        (ai_generate_candidates g.core) g (-(10 ^ 18)) none rfl
        (cand_empty hwfc) (Or.inl rfl)
      rw [max_self] at hroot
      rw [hL, hR]
      exact hroot
    · have htm2 : (tm == g.core.ai) = false := Bool.eq_false_iff.mpr htm
      have hL : alpha_beta (1 + 1) g tm (-(10 ^ 18)) (10 ^ 18)
          = ab_min_loop (fun g2 tm2 a2 b2 => alpha_beta 1 g2 tm2 a2 b2) 2 tm g
            (ai_generate_candidates g.core) (10 ^ 18) none (-(10 ^ 18))
            (10 ^ 18) := by
        simp only [alpha_beta]
        rw [if_neg hcand, if_neg htm]
      have hR : minimax (1 + 1) g.core tm
          = ((ai_generate_candidates g.core).map
              (child_val_min 1 g.core tm)).foldl min (10 ^ 18) := by
        unfold minimax
        rw [if_neg hcand, if_neg (by rw [htm2]; exact Bool.false_ne_true)]
      have hroot := root_min_loop
        (fun g2 tm2 a2 b2 => alpha_beta 1 g2 tm2 a2 b2) tm g.core
        (child_val_min 1 g.core tm)
        (fun p hw => by
          simp only [child_val_min]
          rw [if_pos hw])
        (fun g2 p hg2 hnw b hb => by
          have hveq : child_val_min 1 g.core tm p
              = minimax 1 (g.core.setCell p.1 p.2 tm) (flip_to_move tm) := by
            simp only [child_val_min]
            rw [if_neg (by rw [hnw]; exact Bool.false_ne_true)]
          have hstate : ((alpha_beta 1 g2 (flip_to_move tm) (-(10 ^ 18))
              b).1).core = g2.core :=
            alpha_beta_core 1 g2 (flip_to_move tm) (-(10 ^ 18)) b
              (by rw [hg2]; exact WFc_core_setCell hwfc p.1 p.2 tm)
          by_cases hf : (flip_to_move tm == g2.ai_player) = true
          · have node := ab1_max_node (g.core.setCell p.1 p.2 tm)
              (WFc_core_setCell hwfc p.1 p.2 tm) (by exact h15r2)
              (by exact h15c2) g2 (flip_to_move tm) hg2 hf (-(10 ^ 18)) b
            refine ⟨by rw [hveq]; exact node.1, ?_, node.2.2.1, node.2.2.2,
              hstate⟩
            intro hlt
            rcases node.2.1 hlt with h | h
            · rw [hveq]
              exact h
            · exfalso
              linarith [node.2.2.1]
          · have node := ab1_min_node (g.core.setCell p.1 p.2 tm)
              (WFc_core_setCell hwfc p.1 p.2 tm) (by exact h15r2)
              (by exact h15c2) g2 (flip_to_move tm) hg2
              (Bool.eq_false_iff.mpr hf) (-(10 ^ 18)) b
            have hexact := node.2.2.1 (by norm_num) (by linarith)
            refine ⟨?_, fun _ => ?_, node.2.2.2.1, node.2.2.2.2, hstate⟩
            · rw [hexact, hveq]
            · rw [hexact, hveq])
        (fun p => child_val_min1_bounds hwfc h15r2 h15c2 tm p)
        (ai_generate_candidates g.core) g (10 ^ 18) none rfl
        (cand_empty hwfc) (Or.inl rfl)
      rw [min_self] at hroot
      rw [hL, hR]
      exact hroot

theorem alpha_beta_eq_minimax_depth2_witness :
    tinyState.WF ∧ tinyState.rows ≤ 15 ∧ tinyState.cols ≤ 15 ∧
      (alpha_beta 2 tinyState 1 (-(10 ^ 18)) (10 ^ 18)).2.1
        = minimax 2 tinyState.core 1 :=
  ⟨by decide, by decide, by decide,
    alpha_beta_eq_minimax_depth2 tinyState 1 (by decide) (by decide) (by decide)⟩
